import Mathlib

/-!
# Verification of the article-extractor content pipeline

A shallow embedding, in Lean 4, of the scoring, selection, refinement,
preprocessing-sweep, title-cleaning and postprocessing code of the
`article-extractor` Go library, together with theorems settling the
specification claims about those functions.

Conventions of the embedding:
* Go `float64` score arithmetic is modelled over `ℚ`; the constants involved
  (1, 0.5, 0.25, …) and the comparisons in the claims are insensitive to the
  float/rational distinction.
* Go strings are modelled as Lean `String` (a list of Unicode codepoints);
  `len(s)` on a Go string (bytes) is modelled by `String.utf8ByteSize`,
  `len([]rune(s))` by `String.length`.
* The parsed HTML tree is modelled by a rose tree `HNode`/`HForest`; a
  goquery node identity is modelled by its path of child indices from the
  root.  In-place `Find(...).Each(... Remove ...)` passes are modelled as
  pure top-down tree transformations: the pass visits elements in document
  order, each condition is evaluated on the element's (still unmodified)
  subtree, and removing an element removes its whole subtree, which is
  exactly the recursion in `removeTopDown` below.
* Iteration over a Go `map` has unspecified order, so every function of the
  source that iterates a map takes the entry order as an explicit input.
-/

namespace ArticleExtractor

/-! ## Character and string utilities (internal/dom/text.go) -/

/-- The character class matched by `\s` in a Go regular expression
(`regexp/syntax` Perl class): space, tab, newline, carriage return,
form feed. -/
def isRegexSpace (c : Char) : Bool :=
  c = ' ' || c = '\t' || c = '\n' || c = '\r' || c = '\x0c'

/-- `unicode.IsSpace` from the Go standard library: the Latin-1 white space
characters plus the Unicode `White_Space` property (space separators,
line/paragraph separators). -/
def isUnicodeSpace (c : Char) : Bool :=
  isRegexSpace c || c = '\x0b' || c = '\u0085' || c = ' ' ||
  c = ' ' || (' ' ≤ c && c ≤ ' ') || c = ' ' ||
  c = ' ' || c = ' ' || c = ' ' || c = '　'

mutual
/-- `whitespaceRegex.ReplaceAllString(text, " ")`: each maximal run of
`\s` characters is replaced by a single space. -/
def collapseWS : List Char → List Char
  | [] => []
  | c :: rest => if isRegexSpace c then ' ' :: skipWS rest else c :: collapseWS rest

/-- State of `collapseWS` directly after a replaced whitespace run started. -/
def skipWS : List Char → List Char
  | [] => []
  | c :: rest => if isRegexSpace c then skipWS rest else c :: collapseWS rest
end

/-- `strings.TrimSpace`: remove leading and trailing Unicode white space. -/
def trimChars (l : List Char) : List Char :=
  ((l.dropWhile isUnicodeSpace).reverse.dropWhile isUnicodeSpace).reverse

/-- `strings.TrimSpace` on strings. -/
def trimString (s : String) : String := ⟨trimChars s.data⟩

/-- `dom.NormalizeText`: collapse `\s+` runs to one space, then trim. -/
def normalizeText (s : String) : String := ⟨trimChars (collapseWS s.data)⟩

/-- Comma counting loop of `dom.CountCommas`: ASCII `,` and the CJK
ideographic comma. -/
def countCommasList : List Char → Nat
  | [] => 0
  | c :: rest => (if c = ',' || c = '，' then 1 else 0) + countCommasList rest

/-- `dom.CountCommas`. -/
def countCommas (s : String) : Nat := countCommasList s.data

/-- The scanning loop of `dom.CountWords`: `inWord` is the loop state. -/
def countWordsLoop : List Char → Bool → Nat
  | [], inWord => if inWord then 1 else 0
  | c :: rest, inWord =>
    if isUnicodeSpace c then (if inWord then 1 else 0) + countWordsLoop rest false
    else countWordsLoop rest true

/-- `dom.CountWords`: normalize, then count word transitions. -/
def countWords (text : String) : Nat :=
  let t := normalizeText text
  if t = "" then 0 else countWordsLoop t.data false

mutual
/-- Specification-side count of whitespace-delimited tokens: the number of
maximal runs of non-whitespace characters. -/
def tokenCountList : List Char → Nat
  | [] => 0
  | c :: rest => if isUnicodeSpace c then tokenCountList rest else 1 + tokenSkip rest

/-- `tokenCountList` while inside a token. -/
def tokenSkip : List Char → Nat
  | [] => 0
  | c :: rest => if isUnicodeSpace c then tokenCountList rest else tokenSkip rest
end

/-- Number of whitespace-delimited tokens of a string. -/
def tokenCount (s : String) : Nat := tokenCountList s.data

/-! ## The parsed HTML tree (the goquery document model) -/

mutual
/-- A node of the parsed tree: a text node, or an element with a tag name,
an attribute list and child nodes. -/
inductive HNode : Type where
  | text : String → HNode
  | elem : String → List (String × String) → HForest → HNode
deriving DecidableEq, Repr

/-- A sequence of sibling nodes. -/
inductive HForest : Type where
  | nil : HForest
  | cons : HNode → HForest → HForest
deriving DecidableEq, Repr
end

mutual
/-- `goquery.Selection.Text()`: concatenation of all text-node data in the
subtree, in document order. -/
def HNode.rawText : HNode → String
  | .text s => s
  | .elem _ _ cs => cs.rawText

def HForest.rawText : HForest → String
  | .nil => ""
  | .cons n f => n.rawText ++ f.rawText
end

/-- Tag name of an element, `""` for a text node (`dom.GetTagName`). -/
def HNode.tagName : HNode → String
  | .text _ => ""
  | .elem t _ _ => t

/-- `dom.GetAttribute` / `sel.Attr`: first attribute with the given key,
or `""` when absent. -/
def HNode.getAttr : HNode → String → String
  | .text _, _ => ""
  | .elem _ attrs _, key =>
    match attrs.find? (fun kv => kv.1 = key) with
    | some kv => kv.2
    | none => ""

/-- Whether the element carries the given attribute. -/
def HNode.hasAttr : HNode → String → Bool
  | .text _, _ => false
  | .elem _ attrs _, key => attrs.any (fun kv => kv.1 = key)

mutual
/-- All element nodes strictly below this node, in document (pre-)order:
`sel.Find("*")`. -/
def HNode.elemDescendants : HNode → List HNode
  | .text _ => []
  | .elem _ _ cs => cs.elemsPre

/-- All element nodes of a forest and their element descendants, in
document order. -/
def HForest.elemsPre : HForest → List HNode
  | .nil => []
  | .cons (.text _) f => f.elemsPre
  | .cons (.elem t a cs) f => HNode.elem t a cs :: (cs.elemsPre ++ f.elemsPre)
end

/-- `dom.GetText`: normalized text of the subtree. -/
def HNode.getText (n : HNode) : String := normalizeText n.rawText

/-- `dom.GetTextLength`: codepoint length of the normalized text. -/
def getTextLength (n : HNode) : Nat := n.getText.length

/-- `sel.Find("a")`: all anchor element descendants. -/
def anchorsOf (n : HNode) : List HNode :=
  n.elemDescendants.filter (fun m => m.tagName = "a")

/-- `dom.GetLinkTextLength`: total normalized text length of all anchor
descendants. -/
def getLinkTextLength (n : HNode) : Nat :=
  (anchorsOf n).foldl (fun acc a => acc + getTextLength a) 0

/-- `dom.CalculateLinkDensity`: ratio of anchor text length to total text
length, `0` for an empty node. -/
def calculateLinkDensity (n : HNode) : ℚ :=
  let textLen := getTextLength n
  if textLen = 0 then 0 else (getLinkTextLength n : ℚ) / (textLen : ℚ)

/-- Child access within a forest. -/
def HForest.get? : HForest → Nat → Option HNode
  | .nil, _ => none
  | .cons n _, 0 => some n
  | .cons _ f, i + 1 => f.get? i

/-- Node addressed by a path of child indices from the root; the root has
path `[]`.  Paths model goquery node identity. -/
def HNode.getAt : HNode → List Nat → Option HNode
  | n, [] => some n
  | .text _, _ :: _ => none
  | .elem _ _ cs, i :: p =>
    match cs.get? i with
    | some c => c.getAt p
    | none => none

mutual
/-- Paths (relative to a base path `p`) of all `p`/`pre` element descendants
of a node, in document order: `doc.Find("p, pre")`. -/
def HNode.paraPathsAux : HNode → List Nat → List (List Nat)
  | .text _, _ => []
  | .elem t _ cs, p =>
    (if t = "p" || t = "pre" then [p] else []) ++ cs.paraPathsAuxF p 0

def HForest.paraPathsAuxF : HForest → List Nat → Nat → List (List Nat)
  | .nil, _, _ => []
  | .cons n f, p, i => n.paraPathsAux (p ++ [i]) ++ f.paraPathsAuxF p (i + 1)
end

/-- Paths of all `p`/`pre` elements strictly below the document root. -/
def paragraphPaths (root : HNode) : List (List Nat) :=
  match root with
  | .text _ => []
  | .elem _ _ cs => cs.paraPathsAuxF [] 0

/-- `sel.Parent()` as a path: defined unless the node is the root. -/
def parentPath (p : List Nat) : Option (List Nat) :=
  if p = [] then none else some p.dropLast

/-- Grandparent as a path: defined when the node is at depth at least two. -/
def grandparentPath (p : List Nat) : Option (List Nat) :=
  if 2 ≤ p.length then some p.dropLast.dropLast else none

/-! ## Keyword classifier (internal/keywords) -/

/-- Whether `pat` starts the char list `l`. -/
def charsStartWith : List Char → List Char → Bool
  | [], _ => true
  | _ :: _, [] => false
  | p :: ps, c :: cs => p = c && charsStartWith ps cs

/-- Whether `pat` occurs as a contiguous sublist of `l`. -/
def charsContain (l pat : List Char) : Bool :=
  charsStartWith pat l ||
    match l with
    | [] => false
    | _ :: rest => charsContain rest pat

/-- Case-insensitive substring match, the semantics of the compiled
`(?i)(kw1|kw2|…)` keyword pattern applied with `MatchString`. -/
def containsCI (s kw : String) : Bool :=
  charsContain (s.data.map Char.toLower) (kw.data.map Char.toLower)

/-- `keywords.whitelistKeywords`. -/
def whitelistKeywords : List String :=
  ["article", "body", "content", "entry", "main", "page", "post", "text",
   "blog", "story", "hentry", "h-entry", "entry-content", "article-body",
   "article-content"]

/-- `keywords.blacklistKeywords`. -/
def blacklistKeywords : List String :=
  ["ad", "advertisement", "banner", "breadcrumbs", "combx", "comment",
   "community", "cover-wrap", "disqus", "extra", "footer", "gdpr", "header",
   "legends", "menu", "related", "remark", "replies", "rss", "shoutbox",
   "sidebar", "skyscraper", "social", "sponsor", "supplemental", "widget",
   "agegate", "pagination", "pager", "popup", "print", "archive",
   "author-info", "author-box", "bio", "carousel", "gallery", "modal",
   "navigation", "newsletter", "promo", "share", "subscribe", "tags",
   "toolbar", "trending", "dd-widget", "deeperdive", "ai-widget", "chatbot",
   "ask-ai", "genai", "ai-assistant", "ai-answer"]

/-- `keywords.IsWhitelisted`. -/
def isWhitelisted (s : String) : Bool :=
  if s = "" then false else whitelistKeywords.any (fun kw => containsCI s kw)

/-- `keywords.IsBlacklisted`. -/
def isBlacklisted (s : String) : Bool :=
  if s = "" then false else blacklistKeywords.any (fun kw => containsCI s kw)

/-- `keywords.GetWeight`: ±25 per matching set, class and id independent. -/
def getWeight (cls id : String) : ℤ :=
  let weight : ℤ := 0
  let weight := if cls ≠ "" then
      (if isWhitelisted cls then weight + 25 else weight) else weight
  let weight := if cls ≠ "" then
      (if isBlacklisted cls then weight - 25 else weight) else weight
  let weight := if id ≠ "" then
      (if isWhitelisted id then weight + 25 else weight) else weight
  let weight := if id ≠ "" then
      (if isBlacklisted id then weight - 25 else weight) else weight
  weight

/-! ## Scoring constants (internal/scorer/constants.go) -/

def HNewsBonus : ℚ := 80
def ParagraphBaseScore : ℚ := 1
def CommaBonus : ℚ := 1
def LengthChunkSize : Nat := 50
def MaxLengthBonus : Nat := 3
def DivBonus : ℚ := 5
def TdBlockquoteBonus : ℚ := 3
def FormAddressPenalty : ℚ := -3
def ParentScoreProportion : ℚ := 1
def GrandparentScoreProportion : ℚ := 1 / 2
def LowWeightLinkDensityMax : ℚ := 1 / 5
def HighWeightLinkDensityMax : ℚ := 1 / 2
def SiblingScoreThresholdBase : ℚ := 10
def SiblingScoreThresholdFactor : ℚ := 1 / 4

/-- `scorer.GetTagScore`: lookup in the tag scoring map. -/
def getTagScore (tag : String) : ℚ :=
  if tag = "div" then DivBonus
  else if tag = "td" then TdBlockquoteBonus
  else if tag = "blockquote" then TdBlockquoteBonus
  else if tag = "form" then FormAddressPenalty
  else if tag = "address" then FormAddressPenalty
  else 0

/-! ## Paragraph scorer (internal/scorer/paragraph.go) -/

/-- `scorer.ScoreParagraph` on the node's raw text: normalize, reject short
text, then base score plus comma bonus plus capped length bonus. -/
def scoreParagraph (text : String) (minLength : Nat) : ℚ :=
  let t := normalizeText text
  let textLen := t.length
  if textLen < minLength then 0
  else
    let score := ParagraphBaseScore
    let commas := countCommas t
    let score := score + (commas : ℚ) * CommaBonus
    let lengthBonus := textLen / LengthChunkSize
    let lengthBonus := if lengthBonus > MaxLengthBonus then MaxLengthBonus else lengthBonus
    score + (lengthBonus : ℚ)

/-! ## Node scores and the score map (scorer) -/

/-- `scorer.NodeScore`; the goquery selection is identified by its path. -/
structure NodeScore : Type where
  path : List Nat
  contentScore : ℚ
  weight : ℤ
  linkDensity : ℚ
  textLength : Nat
deriving DecidableEq, Repr

/-- `NodeScore.GetWeightedScore`. -/
def weightedScore (ns : NodeScore) : ℚ := ns.contentScore + (ns.weight : ℚ)

/-- `NodeScore.IsHighLinkDensity`: weight-dependent density ceiling. -/
def isHighLinkDensity (ns : NodeScore) : Bool :=
  if 0 ≤ ns.weight then ns.linkDensity > HighWeightLinkDensityMax
  else ns.linkDensity > LowWeightLinkDensityMax

/-- The score map, keyed by node identity; the list keeps insertion order
(Go map iteration order is modelled separately, as an input). -/
abbrev ScoreMap := List NodeScore

/-- Lookup by node identity (`ScoreMap.Get` before creation). -/
def smFind? (sm : ScoreMap) (p : List Nat) : Option NodeScore :=
  sm.find? (fun ns => ns.path = p)

/-- Store an entry: replace the entry with the same identity, or append. -/
def smStore : ScoreMap → NodeScore → ScoreMap
  | [], ns => [ns]
  | old :: rest, ns =>
    if old.path = ns.path then ns :: rest else old :: smStore rest ns

/-- `hasHNews`: goquery `HasClass` checks (space-padded substring match on
the `class` attribute) and the four schema.org `itemtype` values. -/
def hasClassGoquery (n : HNode) (cls : String) : Bool :=
  charsContain (" " ++ n.getAttr "class" ++ " ").data (" " ++ cls ++ " ").data

def hasHNews (n : HNode) : Bool :=
  hasClassGoquery n "hentry" || hasClassGoquery n "h-entry" ||
  hasClassGoquery n "entry-content" ||
  (n.hasAttr "itemtype" &&
    (n.getAttr "itemtype" = "http://schema.org/Article" ||
     n.getAttr "itemtype" = "https://schema.org/Article" ||
     n.getAttr "itemtype" = "http://schema.org/NewsArticle" ||
     n.getAttr "itemtype" = "https://schema.org/NewsArticle"))

/-- `scorer.initializeNodeScore`: tag bonus, classifier weight, hNews bonus,
link density and text length of the ancestor node `n`. -/
def initializeNodeScore (n : HNode) (ns : NodeScore) : NodeScore :=
  let ns := { ns with contentScore := ns.contentScore + getTagScore n.tagName }
  let ns := { ns with weight := getWeight (n.getAttr "class") (n.getAttr "id") }
  let ns := if hasHNews n then
      { ns with contentScore := ns.contentScore + HNewsBonus } else ns
  let ns := { ns with linkDensity := calculateLinkDensity n }
  { ns with textLength := getTextLength n }

/-- One ancestor update of `scorer.PropagateScores`: fetch or create the
entry, initialize it when its accumulated content score is zero, then add
the proportioned paragraph score.  The second component of the state is the
trace of initialization events (the paths passed to
`initializeNodeScore`, in order). -/
def contribute (root : HNode) (st : ScoreMap × List (List Nat))
    (p? : Option (List Nat)) (amount : ℚ) : ScoreMap × List (List Nat) :=
  match p? with
  | none => st
  | some p =>
    match root.getAt p with
    | none => st
    | some node =>
      let ns := match smFind? st.1 p with
        | some ns => ns
        | none => ⟨p, 0, 0, 0, 0⟩
      let (ns, tr) :=
        if ns.contentScore = 0 then (initializeNodeScore node ns, st.2 ++ [p])
        else (ns, st.2)
      (smStore st.1 { ns with contentScore := ns.contentScore + amount }, tr)

/-- Processing of one `p`/`pre` element in `scorer.PropagateScores`. -/
def propagateStep (root : HNode) (minParagraphLength : Nat)
    (st : ScoreMap × List (List Nat)) (ppath : List Nat) :
    ScoreMap × List (List Nat) :=
  let paragraphScore := match root.getAt ppath with
    | some n => scoreParagraph n.rawText minParagraphLength
    | none => 0
  if paragraphScore = 0 then st
  else
    let st := contribute root st (parentPath ppath)
      (paragraphScore * ParentScoreProportion)
    contribute root st (grandparentPath ppath)
      (paragraphScore * GrandparentScoreProportion)

/-- `scorer.PropagateScores` with the initialization-event trace. -/
def propagateScoresTr (root : HNode) (minParagraphLength : Nat) :
    ScoreMap × List (List Nat) :=
  (paragraphPaths root).foldl (propagateStep root minParagraphLength) ([], [])

/-- `scorer.ScoreAndPropagate`: the score map after propagation. -/
def propagateScores (root : HNode) (minParagraphLength : Nat) : ScoreMap :=
  (propagateScoresTr root minParagraphLength).1

/-- The per-entry update of `scorer.RefineScores`. -/
def refineNode (ns : NodeScore) : NodeScore :=
  if isHighLinkDensity ns then
    { ns with contentScore := ns.contentScore * (1 - ns.linkDensity) }
  else ns

/-- `scorer.RefineScores`: every map entry is updated once, in place. -/
def refineScores (sm : ScoreMap) : ScoreMap := sm.map refineNode

/-- `ScoreMap.GetTopCandidate` loop over the given map iteration order:
`top` starts at nil and `topScore` at `-1`, strictly greater wins. -/
def getTopCandidateLoop : List NodeScore → Option NodeScore → ℚ → Option NodeScore
  | [], top, _ => top
  | ns :: rest, top, topScore =>
    if weightedScore ns > topScore then
      getTopCandidateLoop rest (some ns) (weightedScore ns)
    else getTopCandidateLoop rest top topScore

/-- `ScoreMap.GetTopCandidate`, taking the map iteration order as input. -/
def getTopCandidate (entries : List NodeScore) : Option NodeScore :=
  getTopCandidateLoop entries none (-1)

/-- `scorer.GetSiblingThreshold`. -/
def getSiblingThreshold (topScore : ℚ) : ℚ :=
  let threshold := topScore * SiblingScoreThresholdFactor
  if threshold < SiblingScoreThresholdBase then SiblingScoreThresholdBase
  else threshold

/-! ## In-place removal passes

`doc.Find(...).Each(func ... { ... sel.Remove() })` visits the matched
elements in document order over a list computed up front; removing an
element detaches its whole subtree, and conditions of elements visited
later are evaluated on their own (unchanged) subtrees.  This is the
top-down recursion below: a removed child disappears with its subtree, a
kept child is recursed into. -/

mutual
def removeTopDown (cond : HNode → Bool) : HNode → HNode
  | .text s => .text s
  | .elem t a cs => .elem t a (removeTopDownF cond cs)

def removeTopDownF (cond : HNode → Bool) : HForest → HForest
  | .nil => .nil
  | .cons n f =>
    if cond n then removeTopDownF cond f
    else .cons (removeTopDown cond n) (removeTopDownF cond f)
end

/-! ## Preprocessing: StripUnlikelyCandidates (cleaner/preprocess.go) -/

/-- `cleaner.unlikelyTags`. -/
def unlikelyTags : List String :=
  ["footer", "header", "nav", "aside", "menu", "menuitem"]

/-- Removal condition of the first half of `StripUnlikelyCandidates` for one
unlikely tag: the tag matches and neither class nor id is whitelisted. -/
def unlikelyTagCond (tag : String) (n : HNode) : Bool :=
  match n with
  | .text _ => false
  | .elem t _ _ =>
    t = tag && !(isWhitelisted (n.getAttr "class") || isWhitelisted (n.getAttr "id"))

/-- Removal condition of the blacklist sweep (second half of
`StripUnlikelyCandidates`): a non-protected element whose combined
class+id text is blacklisted, not whitelisted, and whose text is short or
link-dense. -/
def sweepCond (n : HNode) : Bool :=
  match n with
  | .text _ => false
  | .elem t _ _ =>
    if t = "body" || t = "html" || t = "article" || t = "main" then false
    else
      let combined := n.getAttr "class" ++ " " ++ n.getAttr "id"
      if isWhitelisted combined then false
      else if isBlacklisted combined then
        decide (getTextLength n < 200) || decide (calculateLinkDensity n > 1/2)
      else false

/-- The blacklist sweep of `StripUnlikelyCandidates` (the `Find("*")` loop). -/
def blacklistSweep (root : HNode) : HNode := removeTopDown sweepCond root

/-- `cleaner.StripUnlikelyCandidates`: unlikely-tag removal (one `Find` per
tag, in order), then the blacklist sweep. -/
def stripUnlikelyCandidates (root : HNode) : HNode :=
  blacklistSweep
    (unlikelyTags.foldl (fun d tag => removeTopDown (unlikelyTagCond tag) d) root)

mutual
/-- The elements directly removed by the blacklist sweep: elements for which
`sweepCond` fires while all their ancestors were kept.  (Elements inside a
removed ancestor's subtree disappear without appearing here.) -/
def sweepRemoved : HNode → List HNode
  | .text _ => []
  | .elem _ _ cs => sweepRemovedF cs

def sweepRemovedF : HForest → List HNode
  | .nil => []
  | .cons n f =>
    if sweepCond n then n :: sweepRemovedF f
    else sweepRemoved n ++ sweepRemovedF f
end

/-! ## Title cleaning (metadata/title.go) -/

/-- `metadata.titleSeparators`. -/
def titleSeparators : List String :=
  [" | ", " - ", " :: ", " / ", " » ", " — ", " · "]

/-- Split at the last occurrence of `sep` (the char-level equivalent of
`strings.LastIndex`, which is well defined because occurrences of a valid
UTF-8 needle in UTF-8 text align with codepoint boundaries). -/
def lastSplit (l sep : List Char) : Option (List Char × List Char) :=
  match l with
  | [] => none
  | c :: rest =>
    match lastSplit rest sep with
    | some (b, a) => some (c :: b, a)
    | none =>
      if charsStartWith sep l then some ([], l.drop sep.length) else none

/-- Byte length of a char list, `len` of the corresponding Go string. -/
def byteLen (l : List Char) : Nat := (String.mk l).utf8ByteSize

/-- One separator step of the loop in `metadata.cleanTitle`: split at the
last occurrence, keep the side more than twice as long as the other
(byte lengths), otherwise leave the title unchanged. -/
def sepStep (cur : String) (sep : String) : String :=
  match lastSplit cur.data sep.data with
  | none => cur
  | some (before, after) =>
    if byteLen before > byteLen after * 2 then trimString ⟨before⟩
    else if byteLen after > byteLen before * 2 then trimString ⟨after⟩
    else cur

/-- `metadata.cleanTitle`: trim, collapse whitespace, then apply the
separator rule for each known separator in order. -/
def cleanTitle (title : String) : String :=
  let title := trimString title
  let title := String.mk (collapseWS title.data)
  titleSeparators.foldl sepStep title

/-! ## HTML rendering (net/html `Render`), as needed by `sel.Html()` -/

/-- The text/attribute escaping of `net/html` (`escape`): the five
characters `&`, `'`, `<`, `>`, `"` become entities. -/
def escapeChar (c : Char) : List Char :=
  if c = '&' then "&amp;".data
  else if c = '\'' then "&#39;".data
  else if c = '<' then "&lt;".data
  else if c = '>' then "&gt;".data
  else if c = '"' then "&#34;".data
  else [c]

def escapeHtml (s : String) : List Char := s.data.flatMap escapeChar

/-- Rendering of an attribute list: ` key="escaped value"` each. -/
def renderAttrs (attrs : List (String × String)) : List Char :=
  attrs.flatMap (fun kv =>
    " ".data ++ kv.1.data ++ "=\"".data ++ escapeHtml kv.2 ++ "\"".data)

/-- The void elements of `net/html`, rendered as `<tag/>`. -/
def voidTags : List String :=
  ["area", "base", "br", "col", "embed", "hr", "img", "input", "link",
   "meta", "param", "source", "track", "wbr"]

mutual
/-- `net/html` rendering of one node. -/
def HNode.render : HNode → List Char
  | .text s => escapeHtml s
  | .elem t a cs =>
    if voidTags.contains t then
      "<".data ++ t.data ++ renderAttrs a ++ "/>".data
    else
      "<".data ++ t.data ++ renderAttrs a ++ ">".data ++ cs.render ++
        "</".data ++ t.data ++ ">".data

/-- Rendering of a forest; `sel.Html()` is the rendering of the node's
children. -/
def HForest.render : HForest → List Char
  | .nil => []
  | .cons n f => n.render ++ f.render
end

/-- Inner HTML of a node (`sel.Html()`). -/
def innerHtml : HNode → List Char
  | .text _ => []
  | .elem _ _ cs => cs.render

mutual
/-- `regexp.MustCompile("<[^>]*>").ReplaceAllString(html, "")`: drop every
maximal `<…>` span (up to the first `>`); a `<` with no closing `>` is
kept verbatim together with the rest, since the regex cannot match there
or anywhere later. -/
def stripTags : List Char → List Char
  | [] => []
  | c :: rest => if c = '<' then stripInTag rest rest else c :: stripTags rest

/-- Inside a `<…>` span: skip to the first `>`; the second argument
restores the text when the span never closes. -/
def stripInTag : List Char → List Char → List Char
  | [], orig => '<' :: orig
  | c :: rest, orig => if c = '>' then stripTags rest else stripInTag rest orig
end

/-- `cleaner.isOnlyWhitespace`: after dropping all tags, only white space
remains. -/
def isOnlyWhitespaceHtml (html : List Char) : Bool :=
  trimChars (stripTags html) = []

/-! ## Postprocessor (internal/cleaner/postprocess.go) -/

/-- `cleaner.unwantedPatterns`. -/
def unwantedPatterns : List String :=
  ["share", "social", "comment", "related", "recommend", "newsletter",
   "subscribe", "promo", "ad-", "advertisement"]

/-- Condition of `Find("script, style, noscript").Remove()`. -/
def scriptStyleCond (n : HNode) : Bool :=
  n.tagName = "script" || n.tagName = "style" || n.tagName = "noscript"

/-- Condition of `Find("[class*='p'], [id*='p']").Remove()`: the element
carries the attribute and its value contains the pattern (case-sensitive
substring, CSS `*=`). -/
def patternCond (pat : String) (n : HNode) : Bool :=
  match n with
  | .text _ => false
  | .elem _ _ _ =>
    (n.hasAttr "class" && charsContain (n.getAttr "class").data pat.data) ||
    (n.hasAttr "id" && charsContain (n.getAttr "id").data pat.data)

/-- Condition of the empty-link removal: an anchor with no text and no
image descendant. -/
def emptyLinkCond (n : HNode) : Bool :=
  match n with
  | .text _ => false
  | .elem t _ _ =>
    t = "a" && trimString n.rawText = "" &&
    (n.elemDescendants.filter (fun m => m.tagName = "img")).isEmpty

/-- `cleaner.RemoveUnwantedFromContent`: residual script/style/noscript,
then one removal pass per unwanted class/id pattern, then empty links. -/
def removeUnwantedFromContent (n : HNode) : HNode :=
  let n := removeTopDown scriptStyleCond n
  let n := unwantedPatterns.foldl (fun m pat => removeTopDown (patternCond pat) m) n
  removeTopDown emptyLinkCond n

/-- `cleaner.allowedAttributes`: the allow-list per tag; all other elements
keep nothing (`"*": nothing`). -/
def allowedAttrsFor (tag : String) : List String :=
  if tag = "a" then ["href", "title"]
  else if tag = "img" then ["src", "alt", "title", "width", "height"]
  else []

mutual
/-- `cleaner.CleanAttributes`: every element below the root keeps only its
allowed attributes (order preserved); the root itself is outside
`sel.Find("*")`. -/
def cleanAttributes : HNode → HNode
  | .text s => .text s
  | .elem t a cs => .elem t a (cleanAttributesF cs)

def cleanAttributesF : HForest → HForest
  | .nil => .nil
  | .cons (.text s) f => .cons (.text s) (cleanAttributesF f)
  | .cons (.elem t a cs) f =>
    .cons (.elem t (a.filter (fun kv => (allowedAttrsFor t).contains kv.1))
        (cleanAttributesF cs))
      (cleanAttributesF f)
end

/-- Removal condition of `cleaner.RemoveEmptyElements`: not a self-closing
tag, empty trimmed text, and empty or whitespace-only trimmed inner HTML. -/
def emptyCond (n : HNode) : Bool :=
  match n with
  | .text _ => false
  | .elem t _ cs =>
    if t = "br" || t = "hr" || t = "img" then false
    else
      let tx := trimString n.rawText
      let html := trimChars cs.render
      tx = "" && (html = [] || isOnlyWhitespaceHtml html)

/-- One pass of `cleaner.RemoveEmptyElements`. -/
def removeEmptyPass (n : HNode) : HNode := removeTopDown emptyCond n

/-- `cleaner.RemoveEmptyElements`: three identical passes. -/
def removeEmptyElements (n : HNode) : HNode :=
  removeEmptyPass (removeEmptyPass (removeEmptyPass n))

/-- `cleaner.Postprocess`: unwanted removal, attribute cleaning, empty
element removal. -/
def postprocess (n : HNode) : HNode :=
  removeEmptyElements (cleanAttributes (removeUnwantedFromContent n))

/-- `cleaner.GetCleanHTML`: trimmed inner HTML. -/
def getCleanHTML (n : HNode) : String :=
  trimString ⟨innerHtml n⟩

mutual
/-- `newlineRegex.ReplaceAllString(text, "\n\n")`: every maximal run of
three or more newlines becomes exactly two. -/
def collapseNL : List Char → List Char
  | [] => []
  | c :: rest => if c = '\n' then countNL rest 1 else c :: collapseNL rest

/-- Inside a newline run of current length `k`. -/
def countNL : List Char → Nat → List Char
  | [], k => List.replicate (if 3 ≤ k then 2 else k) '\n'
  | c :: rest, k =>
    if c = '\n' then countNL rest (k + 1)
    else List.replicate (if 3 ≤ k then 2 else k) '\n' ++ (c :: collapseNL rest)
end

/-- `dom.NormalizeTextPreserveNewlines`: per line collapse-and-trim, join,
collapse 3+ newlines to two, trim the ends. -/
def normalizeTextPreserveNewlines (s : String) : String :=
  let lines := s.data.splitOn '\n'
  let lines := lines.map (fun l => trimChars (collapseWS l))
  ⟨trimChars (collapseNL (List.intercalate ['\n'] lines))⟩

/-- `cleaner.GetCleanText`. -/
def getCleanText (n : HNode) : String :=
  normalizeTextPreserveNewlines n.rawText

/-! ## Excerpt (dom.GetExcerpt) -/

/-- Backward scan `for i := hi; i >= lo (steps = hi-lo+1); i--` looking for
a character satisfying `p`. -/
def scanBack (p : Char → Bool) (runes : List Char) : Nat → Nat → Option Nat
  | _, 0 => none
  | i, steps + 1 =>
    match runes.get? i with
    | some c => if p c then some i else scanBack p runes (i - 1) steps
    | none => scanBack p runes (i - 1) steps

/-- `dom.GetExcerpt`: sentence-boundary cut, else word-boundary cut with
ellipsis, else hard cut with ellipsis. -/
def getExcerpt (text : String) (maxLength : Nat) : String :=
  let t := normalizeText text
  if t.length ≤ maxLength then t
  else
    let runes := t.data
    let steps := maxLength - 1 - maxLength / 2 + 1
    match scanBack (fun c => c = '.' || c = '。') runes (maxLength - 1) steps with
    | some i => ⟨runes.take (i + 1)⟩
    | none =>
      match scanBack isUnicodeSpace runes (maxLength - 1) steps with
      | some i => String.mk (runes.take i) ++ "..."
      | none => String.mk (runes.take (maxLength - 3)) ++ "..."

/-! ## Candidate sorting and confidence (extractor.go) -/

/-- Swap two positions of a list (`candidates[i], candidates[j] = …`). -/
def listSwap (l : List NodeScore) (i j : Nat) : List NodeScore :=
  match l.get? i, l.get? j with
  | some a, some b => (l.set i b).set j a
  | _, _ => l

/-- Inner loop of the bubble sort in `ScoreMap.GetCandidatesByScore`. -/
def sortInner (l : List NodeScore) (i : Nat) : Nat → Nat → List NodeScore
  | _, 0 => l
  | j, fuel + 1 =>
    if j < l.length then
      let l' := match l.get? i, l.get? j with
        | some a, some b =>
          if weightedScore b > weightedScore a then listSwap l i j else l
        | _, _ => l
      sortInner l' i (j + 1) fuel
    else l

/-- Outer loop of the bubble sort. -/
def sortOuter (l : List NodeScore) : Nat → Nat → List NodeScore
  | _, 0 => l
  | i, fuel + 1 =>
    if i < l.length then
      sortOuter (sortInner l i (i + 1) l.length) (i + 1) fuel
    else l

/-- `ScoreMap.GetCandidatesByScore` over the given map iteration order:
sort by weighted score, descending. -/
def getCandidatesByScore (entries : List NodeScore) : List NodeScore :=
  sortOuter entries 0 entries.length

/-- `Extractor.calculateConfidence`: additive buckets, clamped above at 1. -/
def calculateConfidence (topCandidate : NodeScore) (entries : List NodeScore)
    (wordCount : Nat) : ℚ :=
  let confidence : ℚ := 0
  let score := topCandidate.contentScore
  let confidence := confidence +
    (if score > 100 then (0.4 : ℚ) else if score > 50 then 0.3
     else if score > 20 then 0.2 else 0.1)
  let confidence := confidence +
    (if wordCount > 500 then (0.3 : ℚ) else if wordCount > 200 then 0.2
     else if wordCount > 100 then 0.1 else 0)
  let confidence := confidence +
    (if topCandidate.linkDensity < 0.1 then (0.2 : ℚ)
     else if topCandidate.linkDensity < 0.2 then 0.1 else 0)
  let candidates := getCandidatesByScore entries
  let confidence := confidence +
    (match candidates.get? 1 with
     | some second => if score > second.contentScore * 2 then (0.1 : ℚ) else 0
     | none => 0)
  if confidence > 1 then 1 else confidence

/-! ## The pipeline (extractor.go: extractFromDocument) -/

/-- The configuration fields used by `extractFromDocument`. -/
structure Config : Type where
  minParagraphLength : Nat
  minContentLength : Nat
deriving Repr

structure Image : Type where
  url : String
  width : Nat
  height : Nat
  alt : String
deriving DecidableEq, Repr

/-- The output value (`Article`). -/
structure Article : Type where
  title : String
  content : String
  textContent : String
  excerpt : String
  author : String
  publishedAt : Option String
  leadImage : Option Image
  url : String
  wordCount : Nat
  score : ℚ
  confidence : ℚ
deriving DecidableEq, Repr

/-- The errors `extractFromDocument` can produce. -/
inductive ExtractErrKind : Type where
  | noContent
  | contentTooShort
deriving DecidableEq, Repr

/-- `ExtractionError`: operation, URL, underlying error. -/
structure ExtractionError : Type where
  op : String
  url : String
  err : ExtractErrKind
deriving DecidableEq, Repr

/-- The collaborators `extractFromDocument` calls whose internals are not
under scrutiny here, modelled by their Go signatures: all are total
functions returning plain values (no error results).  `iterOrder` models
the unspecified iteration order of the score map (any permutation). -/
structure PipelineStages : Type where
  extractTitle : HNode → String
  extractAuthor : HNode → String
  extractDate : HNode → Option String
  extractLeadImage : HNode → String → Option Image
  preprocess : HNode → HNode
  mergeSiblings : HNode → ℚ → Nat → HNode
  convertRelativeURLs : HNode → String → HNode
  iterOrder : ScoreMap → List NodeScore

/-- The selected content subtree of `extractFromDocument`: node of the top
candidate, sibling merge, postprocessing of the clone, URL resolution. -/
def selectedContent (st : PipelineStages) (cfg : Config) (doc : HNode)
    (baseURL : String) (top : NodeScore) : HNode :=
  let contentSel := match doc.getAt top.path with
    | some n => n
    | none => .text ""
  let contentSel := st.mergeSiblings contentSel top.contentScore
    cfg.minParagraphLength
  let contentClone := contentSel
  let contentClone := postprocess contentClone
  if baseURL ≠ "" then st.convertRelativeURLs contentClone baseURL
  else contentClone

/-- The tail of `extractFromDocument` from the length check on: fatal
too-short check, word count, confidence, excerpt, assembly. -/
def assembleArticle (st : PipelineStages) (cfg : Config)
    (scoreMap : ScoreMap) (top : NodeScore) (baseURL : String)
    (title author : String) (publishedAt : Option String)
    (leadImage : Option Image) (contentHTML textContent : String) :
    Except ExtractionError Article :=
  if textContent.utf8ByteSize < cfg.minContentLength then
    .error ⟨"validate", baseURL, .contentTooShort⟩
  else
    let wordCount := countWords textContent
    let confidence := calculateConfidence top (st.iterOrder scoreMap) wordCount
    let excerpt := getExcerpt textContent 200
    .ok ⟨title, contentHTML, textContent, excerpt, author, publishedAt,
      leadImage, baseURL, wordCount, top.contentScore, confidence⟩

/-- `Extractor.extractFromDocument`: metadata first, preprocess, score and
refine, pick the top candidate (fatal if none), merge siblings, clone and
postprocess, resolve URLs, then the fatal length check, word count,
confidence, excerpt, and assembly of the Article. -/
def extractFromDocument (st : PipelineStages) (cfg : Config) (doc : HNode)
    (baseURL : String) : Except ExtractionError Article :=
  let title := st.extractTitle doc
  let author := st.extractAuthor doc
  let publishedAt := st.extractDate doc
  let leadImage := st.extractLeadImage doc baseURL
  let doc := st.preprocess doc
  let scoreMap := refineScores (propagateScores doc cfg.minParagraphLength)
  let topCandidate := getTopCandidate (st.iterOrder scoreMap)
  match topCandidate with
  | none => .error ⟨"extract", baseURL, .noContent⟩
  | some top =>
    assembleArticle st cfg scoreMap top baseURL title author publishedAt
      leadImage (getCleanHTML (selectedContent st cfg doc baseURL top))
      (getCleanText (selectedContent st cfg doc baseURL top))

/-! ## Concrete documents used as test inputs -/

/-- A paragraph text of 123 codepoints with three commas: paragraph score
`1 + 3 + ⌊123/50⌋ = 6`. -/
def p1txt : String :=
  ⟨List.replicate 40 'a' ++ [','] ++ List.replicate 40 'b' ++ [','] ++
    List.replicate 40 'c' ++ [',']⟩

/-- `html > body > form > (div > p(123 chars, score 6), div > p(30 chars,
score 1))`: the `form` grandparent receives `-3 + 3 = 0` from the first
paragraph, so the second contribution re-initializes it. -/
def c4doc : HNode :=
  .elem "html" [] (.cons (.elem "body" [] (.cons
    (.elem "form" [] (.cons
      (.elem "div" [] (.cons
        (.elem "p" [] (.cons (.text p1txt) .nil)) .nil))
      (.cons (.elem "div" [] (.cons
        (.elem "p" [] (.cons
          (.text (String.mk (List.replicate 30 'd'))) .nil)) .nil)) .nil)))
    .nil)) .nil)

/-- `html > body > section.sidebar > div.sidebar > p(30 chars)`: both scored
ancestors carry weight `-25`, so every weighted score is at most `-1`. -/
def c10doc : HNode :=
  .elem "html" [] (.cons (.elem "body" [] (.cons
    (.elem "section" [("class", "sidebar")] (.cons
      (.elem "div" [("class", "sidebar")] (.cons
        (.elem "p" [] (.cons
          (.text (String.mk (List.replicate 30 'd'))) .nil)) .nil))
      .nil))
    .nil)) .nil)

/-! # Theorems

One theorem per claim of the specification review, with supporting lemmas.
-/

/-- C1.  For every paragraph text and `minLength`: score `0` below
`minLength` codepoints of normalized text, otherwise `1` plus one per comma
(ASCII or CJK, unbounded) plus `⌊length/50⌋` capped at `3`. -/
theorem C1_paragraph_score (text : String) (minLength : Nat) :
    scoreParagraph text minLength =
      if (normalizeText text).length < minLength then 0
      else 1 + (countCommas (normalizeText text) : ℚ) +
        ((min ((normalizeText text).length / 50) 3 : Nat) : ℚ) := by
  simp only [scoreParagraph, ParagraphBaseScore, CommaBonus, LengthChunkSize,
    MaxLengthBonus]
  by_cases hlen : (normalizeText text).length < minLength
  · rw [if_pos hlen, if_pos hlen]
  · rw [if_neg hlen, if_neg hlen]
    rcases le_or_lt ((normalizeText text).length / 50) 3 with h | h
    · rw [if_neg (by omega), min_eq_left h]; ring
    · rw [if_pos h, min_eq_right h.le]; ring

/-- C3.  Refinement maps each score-map entry once: the content score is
multiplied by `1 - linkDensity` exactly when the link density exceeds the
weight-dependent ceiling (`0.5` for weight `≥ 0`, else `0.2`), and the entry
is unchanged otherwise. -/
theorem C3_refinement (sm : ScoreMap) :
    (refineScores sm).length = sm.length ∧
    ∀ i : Nat, (refineScores sm).get? i =
      (sm.get? i).map (fun ns =>
        let ceiling : ℚ := if 0 ≤ ns.weight then 1/2 else 1/5
        if ns.linkDensity > ceiling then
          { ns with contentScore := ns.contentScore * (1 - ns.linkDensity) }
        else ns) := by
  constructor
  · simp [refineScores]
  · intro i
    have : ∀ ns : NodeScore, refineNode ns =
        (let ceiling : ℚ := if 0 ≤ ns.weight then 1/2 else 1/5
         if ns.linkDensity > ceiling then
           { ns with contentScore := ns.contentScore * (1 - ns.linkDensity) }
         else ns) := by
      intro ns
      unfold refineNode isHighLinkDensity HighWeightLinkDensityMax
        LowWeightLinkDensityMax
      by_cases hw : 0 ≤ ns.weight <;> simp [hw]
    simp only [refineScores, List.get?_map]
    cases sm.get? i with
    | none => rfl
    | some ns => simpa using this ns

/-! ### Lemmas on the top-candidate loop -/

/-- Once `top` is set, the loop never returns nil. -/
theorem getTopCandidateLoop_some (l : List NodeScore) :
    ∀ (t0 : NodeScore) (ts : ℚ), getTopCandidateLoop l (some t0) ts ≠ none := by
  induction l with
  | nil => intro t0 ts h; simp [getTopCandidateLoop] at h
  | cons ns rest ih =>
    intro t0 ts
    unfold getTopCandidateLoop
    split
    · exact ih ns (weightedScore ns)
    · exact ih t0 ts

/-- With nil top, the loop returns nil iff no entry beats the bar. -/
theorem getTopCandidateLoop_none_iff (l : List NodeScore) :
    ∀ ts : ℚ, getTopCandidateLoop l none ts = none ↔
      ∀ ns ∈ l, weightedScore ns ≤ ts := by
  induction l with
  | nil => intro ts; simp [getTopCandidateLoop]
  | cons ns rest ih =>
    intro ts
    unfold getTopCandidateLoop
    split
    · rename_i hgt
      constructor
      · intro h; exact absurd h (getTopCandidateLoop_some rest ns (weightedScore ns))
      · intro h; exact absurd hgt (not_lt.mpr (h ns (by simp)))
    · rename_i hle
      rw [ih ts]
      constructor
      · intro h m hm
        rcases List.mem_cons.mp hm with rfl | hm'
        · exact not_lt.mp hle
        · exact h m hm'
      · intro h m hm; exact h m (List.mem_cons_of_mem _ hm)

/-- With a current best `t0` of score `ts`, the loop returns a maximum. -/
theorem getTopCandidateLoop_some_spec (l : List NodeScore) :
    ∀ (t0 t : NodeScore) (ts : ℚ), weightedScore t0 = ts →
      getTopCandidateLoop l (some t0) ts = some t →
      (t ∈ l ∨ t = t0) ∧ ts ≤ weightedScore t ∧
        ∀ ns ∈ l, weightedScore ns ≤ weightedScore t := by
  induction l with
  | nil =>
    intro t0 t ts hts h
    simp [getTopCandidateLoop] at h
    subst h
    exact ⟨Or.inr rfl, le_of_eq hts.symm, by simp⟩
  | cons ns rest ih =>
    intro t0 t ts hts h
    unfold getTopCandidateLoop at h
    split at h
    · rename_i hgt
      obtain ⟨hmem, hge, hall⟩ := ih ns t (weightedScore ns) rfl h
      refine ⟨?_, le_trans (le_of_lt (hts ▸ hgt)) hge, ?_⟩
      · rcases hmem with hm | rfl
        · exact Or.inl (List.mem_cons_of_mem _ hm)
        · exact Or.inl (List.mem_cons_self _ _)
      · intro m hm
        rcases List.mem_cons.mp hm with rfl | hm'
        · exact hge
        · exact hall m hm'
    · rename_i hle
      obtain ⟨hmem, hge, hall⟩ := ih t0 t ts hts h
      refine ⟨?_, hge, ?_⟩
      · rcases hmem with hm | rfl
        · exact Or.inl (List.mem_cons_of_mem _ hm)
        · exact Or.inr rfl
      · intro m hm
        rcases List.mem_cons.mp hm with rfl | hm'
        · exact le_trans (not_lt.mp hle) (hts ▸ hge)
        · exact hall m hm'

/-- Starting from nil: a returned candidate is a strict-above-bar maximum. -/
theorem getTopCandidateLoop_none_spec (l : List NodeScore) :
    ∀ (ts : ℚ) (t : NodeScore), getTopCandidateLoop l none ts = some t →
      t ∈ l ∧ ts < weightedScore t ∧
        ∀ ns ∈ l, weightedScore ns ≤ weightedScore t := by
  induction l with
  | nil => intro ts t h; simp [getTopCandidateLoop] at h
  | cons ns rest ih =>
    intro ts t h
    unfold getTopCandidateLoop at h
    split at h
    · rename_i hgt
      obtain ⟨hmem, hge, hall⟩ := getTopCandidateLoop_some_spec rest ns t
        (weightedScore ns) rfl h
      refine ⟨?_, lt_of_lt_of_le hgt hge, ?_⟩
      · rcases hmem with hm | rfl
        · exact List.mem_cons_of_mem _ hm
        · exact List.mem_cons_self _ _
      · intro m hm
        rcases List.mem_cons.mp hm with rfl | hm'
        · exact hge
        · exact hall m hm'
    · rename_i hle
      obtain ⟨hmem, hgt', hall⟩ := ih ts t h
      refine ⟨List.mem_cons_of_mem _ hmem, hgt', ?_⟩
      intro m hm
      rcases List.mem_cons.mp hm with rfl | hm'
      · exact le_trans (not_lt.mp hle) hgt'.le
      · exact hall m hm'

/-- C2 counterexample.  Two score-map entries tie at weighted score `5`;
the node at path `[0, 1]` precedes the node at path `[0, 2]` in document
order, yet the candidate returned depends on the order in which the score
map happens to be iterated: for the iteration order that visits `[0, 2]`
first, the later-in-document-order node is returned.  Go map iteration
order is not fixed, so the selection is not the deterministic
earliest-in-document-order rule the claim states. -/
theorem C2_counterexample :
    getTopCandidate [⟨[0, 1], 5, 0, 0, 0⟩, ⟨[0, 2], 5, 0, 0, 0⟩] =
      some ⟨[0, 1], 5, 0, 0, 0⟩ ∧
    getTopCandidate [⟨[0, 2], 5, 0, 0, 0⟩, ⟨[0, 1], 5, 0, 0, 0⟩] =
      some ⟨[0, 2], 5, 0, 0, 0⟩ ∧
    weightedScore ⟨[0, 1], 5, 0, 0, 0⟩ = weightedScore ⟨[0, 2], 5, 0, 0, 0⟩ ∧
    (⟨[0, 1], 5, 0, 0, 0⟩ : NodeScore) ≠ ⟨[0, 2], 5, 0, 0, 0⟩ := by
  refine ⟨?_, ?_, ?_, ?_⟩ <;> with_unfolding_all decide

/-- C2 amended.  Candidate selection does return an entry maximizing the
weighted score — provided some entry's weighted score exceeds `-1`
(otherwise it returns nothing); which of several tied maxima is returned is
the first one in the map iteration order, which Go leaves unspecified. -/
theorem C2_selection (entries : List NodeScore) :
    (getTopCandidate entries = none →
      ∀ ns ∈ entries, weightedScore ns ≤ -1) ∧
    ∀ t : NodeScore, getTopCandidate entries = some t →
      t ∈ entries ∧ -1 < weightedScore t ∧
        ∀ ns ∈ entries, weightedScore ns ≤ weightedScore t := by
  constructor
  · intro h
    exact (getTopCandidateLoop_none_iff entries (-1)).mp h
  · intro t h
    exact getTopCandidateLoop_none_spec entries (-1) t h

/-- Witness for `C2_selection` at a concrete score map. -/
theorem C2_selection_witness :
    (⟨[0], 5, 0, 0, 0⟩ : NodeScore) ∈ [(⟨[0], 5, 0, 0, 0⟩ : NodeScore)] ∧
    (-1 : ℚ) < weightedScore ⟨[0], 5, 0, 0, 0⟩ ∧
    ∀ ns ∈ [(⟨[0], 5, 0, 0, 0⟩ : NodeScore)],
      weightedScore ns ≤ weightedScore ⟨[0], 5, 0, 0, 0⟩ :=
  (C2_selection [⟨[0], 5, 0, 0, 0⟩]).2 ⟨[0], 5, 0, 0, 0⟩
    (by with_unfolding_all decide)

/-! ### C10: top-candidate lookup threshold and the no-content error -/

/-- Trivial collaborators for concrete pipeline runs. -/
def trivialStages : PipelineStages :=
  ⟨fun _ => "", fun _ => "", fun _ => none, fun _ _ => none, id,
   fun n _ _ => n, fun n _ => n, id⟩

/-- C10.  Top-candidate lookup succeeds iff some score-map entry has
weighted score strictly above `-1`; consequently a document all of whose
scored candidates have weighted score at most `-1` fails with the
no-content error, even when the score map is non-empty. -/
theorem C10_no_content (entries : List NodeScore) (st : PipelineStages)
    (cfg : Config) (doc : HNode) (baseURL : String) :
    ((getTopCandidate entries).isSome = true ↔
      ∃ ns ∈ entries, -1 < weightedScore ns) ∧
    ((∀ ns ∈ st.iterOrder (refineScores (propagateScores (st.preprocess doc)
        cfg.minParagraphLength)), weightedScore ns ≤ -1) →
      extractFromDocument st cfg doc baseURL =
        .error ⟨"extract", baseURL, .noContent⟩) := by
  constructor
  · constructor
    · intro h
      cases htop : getTopCandidate entries with
      | none => rw [htop] at h; simp at h
      | some t =>
        obtain ⟨hmem, hgt, _⟩ := getTopCandidateLoop_none_spec entries (-1) t htop
        exact ⟨t, hmem, hgt⟩
    · intro ⟨ns, hmem, hgt⟩
      cases htop : getTopCandidate entries with
      | none =>
        have := (getTopCandidateLoop_none_iff entries (-1)).mp htop ns hmem
        exact absurd hgt (not_lt.mpr this)
      | some t => simp
  · intro h
    have htop : getTopCandidate (st.iterOrder (refineScores
        (propagateScores (st.preprocess doc) cfg.minParagraphLength))) = none := by
      cases htop : getTopCandidate (st.iterOrder (refineScores
          (propagateScores (st.preprocess doc) cfg.minParagraphLength))) with
      | none => rfl
      | some t =>
        obtain ⟨hmem, hgt, _⟩ := getTopCandidateLoop_none_spec _ (-1) t htop
        exact absurd hgt (not_lt.mpr (h t hmem))
    simp only [extractFromDocument, htop]

/-- Witness for `C10_no_content`: a page whose only candidates are
blacklisted containers.  The score map is non-empty but extraction fails
with the no-content error. -/
theorem C10_no_content_witness :
    (refineScores (propagateScores c10doc 25) ≠ []) ∧
    extractFromDocument trivialStages ⟨25, 100⟩ c10doc "" =
      .error ⟨"extract", "", .noContent⟩ := by
  constructor
  · with_unfolding_all decide
  · exact (C10_no_content [] trivialStages ⟨25, 100⟩ c10doc "").2
      (by with_unfolding_all decide)

/-! ### C4: initialization and accumulation of node scores -/

set_option maxRecDepth 100000 in
/-- C4 counterexample.  In `c4doc` the `form` node at path `[0, 0]` is
passed to `initializeNodeScore` twice — its content score is exactly `0`
when the second paragraph contributes — so `weight` and `linkDensity` are
rewritten and the tag penalty is re-added; the map value for the `form`
drops from `0` (after the first paragraph) to `-5/2` (after the second),
so the content score also does not increase monotonically. -/
theorem C4_counterexample :
    (c4doc.getAt [0, 0]).map HNode.tagName = some "form" ∧
    ((propagateScoresTr c4doc 25).2).count [0, 0] = 2 ∧
    smFind? ((((paragraphPaths c4doc).take 1).foldl
        (propagateStep c4doc 25) ([], [])).1) [0, 0] =
      some ⟨[0, 0], 0, 0, 0, 153⟩ ∧
    smFind? (propagateScores c4doc 25) [0, 0] =
      some ⟨[0, 0], -5/2, 0, 0, 153⟩ := by
  refine ⟨?_, ?_, ?_, ?_⟩ <;> with_unfolding_all decide

/-- The per-entry facts that hold throughout propagation: the entry's
identity resolves to a node of the document, and its `weight`,
`linkDensity` and `textLength` always equal the classifier weight, link
density and text length of that node (every rewrite stores the same
values). -/
def StaticOK (root : HNode) (ns : NodeScore) : Prop :=
  ∃ n, root.getAt ns.path = some n ∧
    ns.weight = getWeight (n.getAttr "class") (n.getAttr "id") ∧
    ns.linkDensity = calculateLinkDensity n ∧
    ns.textLength = getTextLength n

@[simp] theorem initializeNodeScore_path (n : HNode) (ns : NodeScore) :
    (initializeNodeScore n ns).path = ns.path := by
  unfold initializeNodeScore; split <;> rfl

@[simp] theorem initializeNodeScore_weight (n : HNode) (ns : NodeScore) :
    (initializeNodeScore n ns).weight =
      getWeight (n.getAttr "class") (n.getAttr "id") := by
  unfold initializeNodeScore; split <;> rfl

@[simp] theorem initializeNodeScore_linkDensity (n : HNode) (ns : NodeScore) :
    (initializeNodeScore n ns).linkDensity = calculateLinkDensity n := by
  unfold initializeNodeScore; split <;> rfl

@[simp] theorem initializeNodeScore_textLength (n : HNode) (ns : NodeScore) :
    (initializeNodeScore n ns).textLength = getTextLength n := by
  unfold initializeNodeScore; split <;> rfl

theorem smStore_mem {sm : ScoreMap} {ns x : NodeScore}
    (h : x ∈ smStore sm ns) : x ∈ sm ∨ x = ns := by
  induction sm with
  | nil => simpa [smStore] using h
  | cons old rest ih =>
    unfold smStore at h
    split at h
    · rcases List.mem_cons.mp h with rfl | hm
      · exact Or.inr rfl
      · exact Or.inl (List.mem_cons_of_mem _ hm)
    · rcases List.mem_cons.mp h with rfl | hm
      · exact Or.inl (List.mem_cons_self _ _)
      · rcases ih hm with hm' | rfl
        · exact Or.inl (List.mem_cons_of_mem _ hm')
        · exact Or.inr rfl

theorem smFind?_path {sm : ScoreMap} {p : List Nat} {f : NodeScore}
    (h : smFind? sm p = some f) : f ∈ sm ∧ f.path = p := by
  refine ⟨List.mem_of_find?_eq_some h, ?_⟩
  have := List.find?_some h
  simpa using this

/-- The invariant is preserved by one ancestor contribution, together with
the trace fact that every tracked node has been initialized. -/
theorem contribute_inv (root : HNode) (st : ScoreMap × List (List Nat))
    (p? : Option (List Nat)) (amount : ℚ)
    (h : ∀ ns ∈ st.1, StaticOK root ns ∧ ns.path ∈ st.2) :
    ∀ ns ∈ (contribute root st p? amount).1,
      StaticOK root ns ∧ ns.path ∈ (contribute root st p? amount).2 := by
  cases p? with
  | none => simpa [contribute] using h
  | some p =>
    cases hget : root.getAt p with
    | none => simpa [contribute, hget] using h
    | some node =>
      cases hfind : smFind? st.1 p with
      | some f =>
        obtain ⟨hfmem, hfpath⟩ := smFind?_path hfind
        by_cases hzero : f.contentScore = 0
        · simp only [contribute, hget, hfind, if_pos hzero]
          intro ns hns
          rcases smStore_mem hns with hm | rfl
          · exact ⟨(h ns hm).1, List.mem_append_left _ (h ns hm).2⟩
          · refine ⟨⟨node, ?_, by simp, by simp, by simp⟩, ?_⟩
            · simpa [hfpath] using hget
            · simp [hfpath]
        · simp only [contribute, hget, hfind, if_neg hzero]
          intro ns hns
          rcases smStore_mem hns with hm | rfl
          · exact ⟨(h ns hm).1, (h ns hm).2⟩
          · obtain ⟨n, hn, hw, hl, ht⟩ := (h f hfmem).1
            exact ⟨⟨n, hn, hw, hl, ht⟩, (h f hfmem).2⟩
      | none =>
        have hzero : (⟨p, 0, 0, 0, 0⟩ : NodeScore).contentScore = 0 := rfl
        simp only [contribute, hget, hfind, if_pos hzero]
        intro ns hns
        rcases smStore_mem hns with hm | rfl
        · exact ⟨(h ns hm).1, List.mem_append_left _ (h ns hm).2⟩
        · refine ⟨⟨node, ?_, by simp, by simp, by simp⟩, ?_⟩
          · simpa using hget
          · simp

theorem propagateStep_inv (root : HNode) (minLen : Nat)
    (st : ScoreMap × List (List Nat)) (ppath : List Nat)
    (h : ∀ ns ∈ st.1, StaticOK root ns ∧ ns.path ∈ st.2) :
    ∀ ns ∈ (propagateStep root minLen st ppath).1,
      StaticOK root ns ∧ ns.path ∈ (propagateStep root minLen st ppath).2 := by
  simp only [propagateStep]
  split
  · exact h
  · exact contribute_inv root _ _ _ (contribute_inv root st _ _ h)

/-- C4 amended.  `weight`, `linkDensity` and `textLength` of every tracked
node always equal the values computed from the node itself — they are
written at the node's first score contribution, and any later
re-initialization (possible when the accumulated content score returns to
exactly `0`) rewrites them with identical values — and every tracked node
appears in the initialization trace. -/
theorem C4_node_statics (root : HNode) (minLen : Nat) :
    ∀ ns ∈ propagateScores root minLen,
      StaticOK root ns ∧ ns.path ∈ (propagateScoresTr root minLen).2 := by
  unfold propagateScores propagateScoresTr
  generalize paragraphPaths root = ps
  have main : ∀ (ps : List (List Nat)) (st : ScoreMap × List (List Nat)),
      (∀ ns ∈ st.1, StaticOK root ns ∧ ns.path ∈ st.2) →
      ∀ ns ∈ (ps.foldl (propagateStep root minLen) st).1,
        StaticOK root ns ∧ ns.path ∈ (ps.foldl (propagateStep root minLen) st).2 := by
    intro ps
    induction ps with
    | nil => intro st h; simpa using h
    | cons p rest ih =>
      intro st h
      simp only [List.foldl_cons]
      exact ih _ (propagateStep_inv root minLen st p h)
  exact main ps ([], []) (by simp)

set_option maxRecDepth 100000 in
/-- Witness for `C4_node_statics` at the `div` ancestor in `c4doc`. -/
theorem C4_node_statics_witness :
    StaticOK c4doc ⟨[0, 0, 0], 11, 0, 0, 123⟩ ∧
    [0, 0, 0] ∈ (propagateScoresTr c4doc 25).2 := by
  have h := C4_node_statics c4doc 25 ⟨[0, 0, 0], 11, 0, 0, 123⟩
    (by with_unfolding_all decide)
  exact h

/-! ### C5: the preprocessing blacklist sweep -/

/-- A blacklisted `div.ad` holding 210 characters of plain text and no
links: by the claim it must survive the sweep. -/
def c5inner : HNode :=
  .elem "div" [("class", "ad")]
    (.cons (.text (String.mk (List.replicate 210 'y'))) .nil)

/-- A blacklisted ancestor wrapping a 250-character link and `c5inner`:
460 characters of text of which 250 are anchor text, link density
`25/46 > 0.5`, so the ancestor is removed — with `c5inner` inside it. -/
def c5outer : HNode :=
  .elem "div" [("class", "ad")]
    (.cons (.elem "a" [] (.cons (.text (String.mk (List.replicate 250 'x'))) .nil))
      (.cons c5inner .nil))

def c5doc : HNode :=
  .elem "html" [] (.cons (.elem "body" [] (.cons c5outer .nil)) .nil)

set_option maxRecDepth 100000 in
/-- C5 counterexample.  `c5inner` is a non-protected element whose combined
class+id text is blacklisted, whose normalized text length is `210 ≥ 200`
and whose link density is `0 ≤ 0.5` — by the claim it survives the sweep —
yet it is absent from the swept document, because its blacklisted ancestor
`c5outer` (link density `25/46 > 0.5`) is removed together with its whole
subtree. -/
theorem C5_counterexample :
    isBlacklisted (c5inner.getAttr "class" ++ " " ++ c5inner.getAttr "id") = true ∧
    isWhitelisted (c5inner.getAttr "class" ++ " " ++ c5inner.getAttr "id") = false ∧
    c5inner.tagName = "div" ∧
    200 ≤ getTextLength c5inner ∧
    calculateLinkDensity c5inner ≤ 1/2 ∧
    c5inner ∈ c5doc.elemDescendants ∧
    c5inner ∉ (blacklistSweep c5doc).elemDescendants := by
  refine ⟨?_, ?_, ?_, ?_, ?_, ?_, ?_⟩ <;> with_unfolding_all decide

/-- Unfolding of the sweep's removal condition into the spec's wording. -/
theorem sweepCond_spec {m : HNode} (h : sweepCond m = true) :
    (m.tagName ≠ "body" ∧ m.tagName ≠ "html" ∧ m.tagName ≠ "article" ∧
      m.tagName ≠ "main") ∧
    isWhitelisted (m.getAttr "class" ++ " " ++ m.getAttr "id") = false ∧
    isBlacklisted (m.getAttr "class" ++ " " ++ m.getAttr "id") = true ∧
    (getTextLength m < 200 ∨ calculateLinkDensity m > 1/2) := by
  cases m with
  | text s => simp [sweepCond] at h
  | elem t a cs =>
    simp only [sweepCond] at h
    split at h
    · exact absurd h (by simp)
    · rename_i hprot
      split at h
      · exact absurd h (by simp)
      · rename_i hwhite
        split at h
        · rename_i hblack
          simp only [Bool.or_eq_true, decide_eq_true_eq] at h
          refine ⟨?_, by simpa using hwhite, hblack, h⟩
          simp only [Bool.or_eq_true, decide_eq_true_eq] at hprot
          push_neg at hprot
          simp only [HNode.tagName]
          tauto
        · exact absurd h (by simp)

mutual
theorem sweepRemoved_spec : ∀ (n m : HNode),
    m ∈ sweepRemoved n → sweepCond m = true
  | .text _, m, h => by simp [sweepRemoved] at h
  | .elem t a cs, m, h =>
    sweepRemovedF_spec cs m (by simpa [sweepRemoved] using h)

theorem sweepRemovedF_spec : ∀ (f : HForest) (m : HNode),
    m ∈ sweepRemovedF f → sweepCond m = true
  | .nil, m, h => by simp [sweepRemovedF] at h
  | .cons n f, m, h => by
    unfold sweepRemovedF at h
    split at h
    · rename_i hc
      rcases List.mem_cons.mp h with rfl | hm
      · exact hc
      · exact sweepRemovedF_spec f m hm
    · rcases List.mem_append.mp h with hm | hm
      · exact sweepRemoved_spec n m hm
      · exact sweepRemovedF_spec f m hm
end

mutual
theorem sweepRemoved_nil_id : ∀ n : HNode,
    sweepRemoved n = [] → removeTopDown sweepCond n = n
  | .text _, _ => rfl
  | .elem t a cs, h => by
    unfold removeTopDown
    rw [sweepRemovedF_nil_id cs (by simpa [sweepRemoved] using h)]

theorem sweepRemovedF_nil_id : ∀ f : HForest,
    sweepRemovedF f = [] → removeTopDownF sweepCond f = f
  | .nil, _ => rfl
  | .cons n f, h => by
    unfold sweepRemovedF at h
    split at h
    · exact absurd h (by simp)
    · rename_i hc
      obtain ⟨h1, h2⟩ := List.append_eq_nil.mp h
      unfold removeTopDownF
      rw [if_neg (by simp [hc]), sweepRemoved_nil_id n h1,
        sweepRemovedF_nil_id f h2]
end

/-- C5 amended.  The sweep's removal decision obeys the claimed rule: an
element is directly removed only when it is non-protected, not
whitelisted, blacklisted, and short or link-dense — so a blacklisted
element with text length `≥ 200` and link density `≤ 0.5` is never itself
removed (it can only disappear inside a removed ancestor's subtree) — and
when the rule fires nowhere the sweep leaves the document unchanged. -/
theorem C5_sweep_decision :
    (∀ (n : HNode), ∀ m ∈ sweepRemoved n,
      (m.tagName ≠ "body" ∧ m.tagName ≠ "html" ∧ m.tagName ≠ "article" ∧
        m.tagName ≠ "main") ∧
      isWhitelisted (m.getAttr "class" ++ " " ++ m.getAttr "id") = false ∧
      isBlacklisted (m.getAttr "class" ++ " " ++ m.getAttr "id") = true ∧
      (getTextLength m < 200 ∨ calculateLinkDensity m > 1/2)) ∧
    ∀ n : HNode, sweepRemoved n = [] → blacklistSweep n = n := by
  constructor
  · intro n m hm
    exact sweepCond_spec (sweepRemoved_spec n m hm)
  · intro n h
    exact sweepRemoved_nil_id n h

set_option maxRecDepth 100000 in
/-- Witness for `C5_sweep_decision`: the one directly removed element of
`c5doc` is `c5outer`, and it satisfies the removal rule. -/
theorem C5_sweep_decision_witness :
    (c5outer.tagName ≠ "body" ∧ c5outer.tagName ≠ "html" ∧
      c5outer.tagName ≠ "article" ∧ c5outer.tagName ≠ "main") ∧
    isWhitelisted (c5outer.getAttr "class" ++ " " ++ c5outer.getAttr "id") = false ∧
    isBlacklisted (c5outer.getAttr "class" ++ " " ++ c5outer.getAttr "id") = true ∧
    (getTextLength c5outer < 200 ∨ calculateLinkDensity c5outer > 1/2) :=
  (C5_sweep_decision).1 c5doc c5outer (by with_unfolding_all decide)

/-! ### C8: title cleaning -/

theorem charsStartWith_iff : ∀ (p l : List Char),
    charsStartWith p l = true ↔ p <+: l
  | [], l => by simp [charsStartWith]
  | p :: ps, [] => by simp [charsStartWith]
  | p :: ps, c :: cs => by
    simp [charsStartWith, List.cons_prefix_cons, charsStartWith_iff ps cs]

theorem charsContain_iff : ∀ (l p : List Char),
    charsContain l p = true ↔ p <:+: l
  | [], p => by
    cases p <;> simp [charsContain, charsStartWith]
  | c :: rest, p => by
    rw [List.infix_cons_iff]
    unfold charsContain
    simp [charsStartWith_iff, charsContain_iff rest p]

/-- Infix-monotonicity of substring occurrence. -/
theorem charsContain_mono {x y s : List Char} (hxy : x <:+: y)
    (h : charsContain y s = false) : charsContain x s = false := by
  cases hc : charsContain x s with
  | false => rfl
  | true =>
    have : s <:+: y := ((charsContain_iff x s).mp hc).trans hxy
    rw [(charsContain_iff y s).mpr this] at h
    exact absurd h (by simp)

theorem lastSplit_eq : ∀ {l sep b a : List Char},
    lastSplit l sep = some (b, a) → l = b ++ sep ++ a := by
  intro l
  induction l with
  | nil => intro sep b a h; simp [lastSplit] at h
  | cons c rest ih =>
    intro sep b a h
    cases hrec : lastSplit rest sep with
    | some p =>
      obtain ⟨b', a'⟩ := p
      have hstep : lastSplit (c :: rest) sep = some (c :: b', a') := by
        unfold lastSplit; rw [hrec]
      rw [hstep] at h
      simp only [Option.some.injEq, Prod.mk.injEq] at h
      obtain ⟨hb, ha⟩ := h
      subst hb; subst ha
      have := ih hrec
      simp [this, List.append_assoc]
    | none =>
      have hstep : lastSplit (c :: rest) sep =
          (if charsStartWith sep (c :: rest) = true then
            some ([], (c :: rest).drop sep.length) else none) := by
        unfold lastSplit; rw [hrec]
      rw [hstep] at h
      split at h
      · rename_i hsw
        simp only [Option.some.injEq, Prod.mk.injEq] at h
        obtain ⟨hb, ha⟩ := h
        subst hb; subst ha
        obtain ⟨t, ht⟩ := (charsStartWith_iff sep (c :: rest)).mp hsw
        rw [List.nil_append, ← ht, List.drop_left]
      · exact absurd h (by simp)

theorem lastSplit_none {l sep : List Char}
    (h : charsContain l sep = false) : lastSplit l sep = none := by
  induction l with
  | nil => rfl
  | cons c rest ih =>
    unfold charsContain at h
    rw [Bool.or_eq_false_iff] at h
    unfold lastSplit
    rw [ih h.2]
    simp [h.1]

theorem sepStep_noOcc {cur sep : String}
    (h : charsContain cur.data sep.data = false) : sepStep cur sep = cur := by
  unfold sepStep
  rw [lastSplit_none h]

theorem trimChars_within (l : List Char) : trimChars l <:+: l := by
  have h1 : trimChars l = List.rdropWhile isUnicodeSpace
      (l.dropWhile isUnicodeSpace) := by
    simp [trimChars, List.rdropWhile]
  rw [h1]
  exact (List.rdropWhile_prefix _ _).isInfix.trans
    (List.dropWhile_suffix _).isInfix

/-- The separator rule as an equation, given the last-occurrence split. -/
theorem sepStep_eq_split {cur sep : String} {b a : List Char}
    (h : lastSplit cur.data sep.data = some (b, a)) :
    sepStep cur sep =
      (if byteLen b > byteLen a * 2 then trimString ⟨b⟩
       else if byteLen a > byteLen b * 2 then trimString ⟨a⟩ else cur) := by
  unfold sepStep; rw [h]

theorem sepStep_within (cur sep : String) :
    (sepStep cur sep).data <:+: cur.data := by
  cases hsplit : lastSplit cur.data sep.data with
  | none =>
    have hstep : sepStep cur sep = cur := by unfold sepStep; rw [hsplit]
    rw [hstep]
  | some p =>
    obtain ⟨b, a⟩ := p
    rw [sepStep_eq_split hsplit]
    have heq := lastSplit_eq hsplit
    have hb : b <+: cur.data := ⟨sep.data ++ a, by rw [heq, List.append_assoc]⟩
    have ha : a <:+ cur.data := ⟨b ++ sep.data, by rw [heq]⟩
    split
    · exact (trimChars_within b).trans hb.isInfix
    · split
      · exact (trimChars_within a).trans ha.isInfix
      · exact List.infix_rfl

theorem foldl_sepStep_noOcc (T : String) (seps : List String)
    (h : ∀ s ∈ seps, charsContain T.data s.data = false) :
    seps.foldl sepStep T = T := by
  induction seps with
  | nil => rfl
  | cons s rest ih =>
    simp only [List.foldl_cons]
    rw [sepStep_noOcc (h s (by simp))]
    exact ih (fun s' hs' => h s' (List.mem_cons_of_mem _ hs'))

/-- Folding the separator loop when exactly one separator position fires:
the steps before leave the title unchanged, the steps after leave the
stepped title unchanged (no occurrences can appear in a kept part). -/
theorem foldl_sepStep_split (T : String) (pre post : List String) (sep : String)
    (hpre : ∀ s ∈ pre, charsContain T.data s.data = false)
    (hpost : ∀ s ∈ post, charsContain T.data s.data = false) :
    (pre ++ sep :: post).foldl sepStep T = sepStep T sep := by
  rw [List.foldl_append, foldl_sepStep_noOcc T pre hpre]
  simp only [List.foldl_cons]
  exact foldl_sepStep_noOcc (sepStep T sep) post
    (fun s hs => charsContain_mono (sepStep_within T sep) (hpost s hs))

/-- The title state after trimming and whitespace collapsing, on which the
separator loop of `cleanTitle` runs. -/
def collapsedTitle (title : String) : String :=
  String.mk (collapseWS (trimString title).data)

set_option maxRecDepth 10000 in
/-- C8 counterexample.  The title `"AAAAAAAA | BB - C"` contains the known
separator `" | "` whose two sides (`8` and `6` bytes) are comparable —
neither is more than twice the other — so by the claim the original
unsplit title is kept; but the code continues with the later separator
`" - "` and returns `"AAAAAAAA | BB"`. -/
theorem C8_counterexample :
    lastSplit ("AAAAAAAA | BB - C").data (" | ").data =
      some (("AAAAAAAA").data, ("BB - C").data) ∧
    (" | ") ∈ titleSeparators ∧
    ¬(byteLen ("AAAAAAAA").data > byteLen ("BB - C").data * 2) ∧
    ¬(byteLen ("BB - C").data > byteLen ("AAAAAAAA").data * 2) ∧
    collapsedTitle "AAAAAAAA | BB - C" = "AAAAAAAA | BB - C" ∧
    cleanTitle "AAAAAAAA | BB - C" = "AAAAAAAA | BB" := by
  refine ⟨?_, ?_, ?_, ?_, ?_, ?_⟩ <;> decide

set_option maxRecDepth 10000 in
/-- C8 amended.  Title cleaning first trims and collapses whitespace and
then applies the separator rule for each known separator in the listed
order, each on the current (possibly already shortened) title, splitting
at the separator's last occurrence; in particular, when exactly one
separator occurs, the side more than twice as long (in bytes) as the other
is kept and otherwise the title is left unsplit — and the spec's example
cleans as stated. -/
theorem C8_title_cleaning :
    cleanTitle "A Very Long Article Title About Something Interesting - Site" =
      "A Very Long Article Title About Something Interesting" ∧
    ∀ (title sep : String) (b a : List Char),
      sep ∈ titleSeparators →
      (∀ s' ∈ titleSeparators, s' ≠ sep →
        charsContain (collapsedTitle title).data s'.data = false) →
      lastSplit (collapsedTitle title).data sep.data = some (b, a) →
      cleanTitle title =
        (if byteLen b > byteLen a * 2 then trimString ⟨b⟩
         else if byteLen a > byteLen b * 2 then trimString ⟨a⟩
         else collapsedTitle title) := by
  constructor
  · decide
  · intro title sep b a hsep hothers hsplit
    have hclean : cleanTitle title =
        titleSeparators.foldl sepStep (collapsedTitle title) := rfl
    rw [hclean, ← sepStep_eq_split hsplit]
    have hno : ∀ s' ∈ titleSeparators, s' ≠ sep →
        charsContain (collapsedTitle title).data s'.data = false := hothers
    have hmem := hsep
    simp only [titleSeparators, List.mem_cons, List.not_mem_nil, or_false] at hmem
    rcases hmem with rfl | rfl | rfl | rfl | rfl | rfl | rfl
    · exact foldl_sepStep_split _ [] [" - ", " :: ", " / ", " » ", " — ", " · "] _
        (by simp)
        (by intro s hs; fin_cases hs <;>
          exact hno _ (by simp [titleSeparators]) (by decide))
    · exact foldl_sepStep_split _ [" | "] [" :: ", " / ", " » ", " — ", " · "] _
        (by intro s hs; fin_cases hs <;>
          exact hno _ (by simp [titleSeparators]) (by decide))
        (by intro s hs; fin_cases hs <;>
          exact hno _ (by simp [titleSeparators]) (by decide))
    · exact foldl_sepStep_split _ [" | ", " - "] [" / ", " » ", " — ", " · "] _
        (by intro s hs; fin_cases hs <;>
          exact hno _ (by simp [titleSeparators]) (by decide))
        (by intro s hs; fin_cases hs <;>
          exact hno _ (by simp [titleSeparators]) (by decide))
    · exact foldl_sepStep_split _ [" | ", " - ", " :: "] [" » ", " — ", " · "] _
        (by intro s hs; fin_cases hs <;>
          exact hno _ (by simp [titleSeparators]) (by decide))
        (by intro s hs; fin_cases hs <;>
          exact hno _ (by simp [titleSeparators]) (by decide))
    · exact foldl_sepStep_split _ [" | ", " - ", " :: ", " / "] [" — ", " · "] _
        (by intro s hs; fin_cases hs <;>
          exact hno _ (by simp [titleSeparators]) (by decide))
        (by intro s hs; fin_cases hs <;>
          exact hno _ (by simp [titleSeparators]) (by decide))
    · exact foldl_sepStep_split _ [" | ", " - ", " :: ", " / ", " » "] [" · "] _
        (by intro s hs; fin_cases hs <;>
          exact hno _ (by simp [titleSeparators]) (by decide))
        (by intro s hs; fin_cases hs <;>
          exact hno _ (by simp [titleSeparators]) (by decide))
    · exact foldl_sepStep_split _ [" | ", " - ", " :: ", " / ", " » ", " — "] [] _
        (by intro s hs; fin_cases hs <;>
          exact hno _ (by simp [titleSeparators]) (by decide))
        (by simp)

set_option maxRecDepth 10000 in
/-- Witness for `C8_title_cleaning` at the spec's own example title. -/
theorem C8_title_cleaning_witness :
    cleanTitle "A Very Long Article Title About Something Interesting - Site" =
      (if byteLen ("A Very Long Article Title About Something Interesting").data >
          byteLen ("Site").data * 2 then
        trimString ⟨("A Very Long Article Title About Something Interesting").data⟩
      else if byteLen ("Site").data >
          byteLen ("A Very Long Article Title About Something Interesting").data * 2 then
        trimString ⟨("Site").data⟩
      else collapsedTitle
        "A Very Long Article Title About Something Interesting - Site") :=
  (C8_title_cleaning).2
    "A Very Long Article Title About Something Interesting - Site" " - " _ _
    (by decide)
    (by intro s' hs' hne
        fin_cases hs' <;> first | decide | exact absurd rfl hne)
    (by decide)

/-! ### C6: word counting equals whitespace-delimited token counting -/

theorem isRegexSpace_isUnicodeSpace {c : Char} (h : isRegexSpace c = true) :
    isUnicodeSpace c = true := by
  simp [isUnicodeSpace, h]

/-- The `inWord` loop of `CountWords` counts maximal non-space runs. -/
theorem countWordsLoop_eq (l : List Char) :
    countWordsLoop l false = tokenCountList l ∧
    countWordsLoop l true = 1 + tokenSkip l := by
  induction l with
  | nil => simp [countWordsLoop, tokenCountList, tokenSkip]
  | cons c rest ih =>
    by_cases hc : isUnicodeSpace c = true <;>
      exact ⟨by simp [countWordsLoop, tokenCountList, hc, ih.1, ih.2],
        by simp [countWordsLoop, tokenSkip, hc, ih.1, ih.2]⟩

/-- Whitespace collapsing does not change the token count. -/
theorem tokenCount_collapseWS (l : List Char) :
    tokenCountList (collapseWS l) = tokenCountList l ∧
    tokenCountList (skipWS l) = tokenCountList l ∧
    tokenSkip (collapseWS l) = tokenSkip l := by
  induction l with
  | nil => simp [collapseWS, skipWS]
  | cons c rest ih =>
    obtain ⟨ih1, ih2, ih3⟩ := ih
    by_cases hr : isRegexSpace c = true
    · have hu := isRegexSpace_isUnicodeSpace hr
      refine ⟨?_, ?_, ?_⟩
      · rw [collapseWS, if_pos hr, tokenCountList, if_pos (by decide),
          tokenCountList, if_pos hu, ih2]
      · rw [skipWS, if_pos hr, ih2, tokenCountList, if_pos hu]
      · rw [collapseWS, if_pos hr, tokenSkip, if_pos (by decide),
          tokenSkip, if_pos hu, ih2]
    · by_cases hu : isUnicodeSpace c = true
      · refine ⟨?_, ?_, ?_⟩
        · rw [collapseWS, if_neg hr, tokenCountList, if_pos hu,
            tokenCountList, if_pos hu, ih1]
        · rw [skipWS, if_neg hr, tokenCountList, if_pos hu,
            tokenCountList, if_pos hu, ih1]
        · rw [collapseWS, if_neg hr, tokenSkip, if_pos hu,
            tokenSkip, if_pos hu, ih1]
      · refine ⟨?_, ?_, ?_⟩
        · rw [collapseWS, if_neg hr, tokenCountList, if_neg hu,
            tokenCountList, if_neg hu, ih3]
        · rw [skipWS, if_neg hr, tokenCountList, if_neg hu,
            tokenCountList, if_neg hu, ih3]
        · rw [collapseWS, if_neg hr, tokenSkip, if_neg hu,
            tokenSkip, if_neg hu, ih3]

theorem tokenCount_allSpace {ys : List Char}
    (h : ∀ c ∈ ys, isUnicodeSpace c = true) :
    tokenCountList ys = 0 ∧ tokenSkip ys = 0 := by
  induction ys with
  | nil => simp [tokenCountList, tokenSkip]
  | cons c rest ih =>
    have hc := h c (by simp)
    have ihr := ih (fun x hx => h x (List.mem_cons_of_mem _ hx))
    exact ⟨by rw [tokenCountList, if_pos hc]; exact ihr.1,
      by rw [tokenSkip, if_pos hc]; exact ihr.1⟩

/-- Dropping an all-space suffix does not change the token count. -/
theorem tokenCount_append_space {xs ys : List Char}
    (h : ∀ c ∈ ys, isUnicodeSpace c = true) :
    tokenCountList (xs ++ ys) = tokenCountList xs ∧
    tokenSkip (xs ++ ys) = tokenSkip xs := by
  induction xs with
  | nil =>
    simpa [tokenCountList, tokenSkip] using tokenCount_allSpace h
  | cons c rest ih =>
    by_cases hc : isUnicodeSpace c = true
    · exact ⟨by rw [List.cons_append, tokenCountList, if_pos hc,
          tokenCountList, if_pos hc, ih.1],
        by rw [List.cons_append, tokenSkip, if_pos hc,
          tokenSkip, if_pos hc, ih.1]⟩
    · exact ⟨by rw [List.cons_append, tokenCountList, if_neg hc,
          tokenCountList, if_neg hc, ih.2],
        by rw [List.cons_append, tokenSkip, if_neg hc,
          tokenSkip, if_neg hc, ih.2]⟩

/-- Dropping an all-space prefix does not change the token count. -/
theorem tokenCount_dropWhile (l : List Char) :
    tokenCountList (l.dropWhile isUnicodeSpace) = tokenCountList l := by
  induction l with
  | nil => rfl
  | cons c rest ih =>
    by_cases hc : isUnicodeSpace c = true
    · rw [List.dropWhile_cons_of_pos hc, ih, tokenCountList, if_pos hc]
    · rw [List.dropWhile_cons_of_neg (by simp [hc])]

theorem trimChars_eq_rdropWhile (l : List Char) :
    trimChars l = List.rdropWhile isUnicodeSpace (l.dropWhile isUnicodeSpace) := by
  simp [trimChars, List.rdropWhile]

theorem rdropWhile_append_rtakeWhile (p : Char → Bool) (l : List Char) :
    List.rdropWhile p l ++ List.rtakeWhile p l = l := by
  rw [List.rdropWhile, List.rtakeWhile, ← List.reverse_append,
    List.takeWhile_append_dropWhile, List.reverse_reverse]

/-- Trimming does not change the token count. -/
theorem tokenCount_trimChars (l : List Char) :
    tokenCountList (trimChars l) = tokenCountList l := by
  rw [trimChars_eq_rdropWhile]
  set d := l.dropWhile isUnicodeSpace with hd
  have hsplit : List.rdropWhile isUnicodeSpace d ++
      List.rtakeWhile isUnicodeSpace d = d := rdropWhile_append_rtakeWhile _ d
  have hall : ∀ c ∈ List.rtakeWhile isUnicodeSpace d, isUnicodeSpace c = true :=
    fun c hc => List.mem_rtakeWhile_imp hc
  calc tokenCountList (List.rdropWhile isUnicodeSpace d)
      = tokenCountList (List.rdropWhile isUnicodeSpace d ++
          List.rtakeWhile isUnicodeSpace d) :=
        (tokenCount_append_space hall).1.symm
    _ = tokenCountList d := by rw [hsplit]
    _ = tokenCountList l := tokenCount_dropWhile l

/-- Normalization does not change the token count. -/
theorem tokenCount_normalize (s : String) :
    tokenCountList (normalizeText s).data = tokenCountList s.data := by
  have : (normalizeText s).data = trimChars (collapseWS s.data) := rfl
  rw [this, tokenCount_trimChars, (tokenCount_collapseWS s.data).1]

/-- `dom.CountWords` counts exactly the whitespace-delimited tokens. -/
theorem countWords_eq_tokenCount (s : String) :
    countWords s = tokenCount s := by
  have hcw : countWords s =
      if normalizeText s = "" then 0
      else countWordsLoop (normalizeText s).data false := rfl
  rw [hcw, tokenCount]
  split
  · rename_i hempty
    have : (normalizeText s).data = [] := by
      simpa [String.ext_iff] using hempty
    rw [← tokenCount_normalize s, this]
    rfl
  · rw [(countWordsLoop_eq (normalizeText s).data).1, tokenCount_normalize s]

theorem dominance_bucket_bounds (o : Option NodeScore) (s : ℚ) :
    0 ≤ (match o with
          | some second => if s > second.contentScore * 2 then (0.1 : ℚ) else 0
          | none => 0) ∧
    (match o with
      | some second => if s > second.contentScore * 2 then (0.1 : ℚ) else 0
      | none => 0) ≤ 0.1 := by
  cases o with
  | none => norm_num
  | some second => dsimp only; split_ifs <;> norm_num

/-- The confidence estimate always lies in `[0, 1]`: every bucket is
non-negative and the sum is clamped above at `1`. -/
theorem calculateConfidence_bounds (top : NodeScore) (entries : List NodeScore)
    (wordCount : Nat) :
    0 ≤ calculateConfidence top entries wordCount ∧
      calculateConfidence top entries wordCount ≤ 1 := by
  simp only [calculateConfidence]
  set s := top.contentScore with hs
  set b1 := (if s > 100 then (0.4 : ℚ) else if s > 50 then 0.3
    else if s > 20 then 0.2 else 0.1) with hb1
  set b2 := (if wordCount > 500 then (0.3 : ℚ) else if wordCount > 200 then 0.2
    else if wordCount > 100 then 0.1 else 0) with hb2
  set b3 := (if top.linkDensity < 0.1 then (0.2 : ℚ)
    else if top.linkDensity < 0.2 then 0.1 else 0) with hb3
  set b4 := (match (getCandidatesByScore entries).get? 1 with
    | some second => if s > second.contentScore * 2 then (0.1 : ℚ) else 0
    | none => 0) with hb4
  have h1 : 0 ≤ b1 := by rw [hb1]; split_ifs <;> norm_num
  have h2 : 0 ≤ b2 := by rw [hb2]; split_ifs <;> norm_num
  have h3 : 0 ≤ b3 := by rw [hb3]; split_ifs <;> norm_num
  have h4 : 0 ≤ b4 := hb4 ▸ (dominance_bucket_bounds _ s).1
  constructor <;> split_ifs with hclamp
  · norm_num
  · linarith
  · norm_num
  · linarith [not_lt.mp hclamp]

/-! ### C6 and C7: the pipeline's success invariants and error taxonomy -/

/-- `html > body > div > p` with thirty characters of text: extraction
succeeds for `minContentLength = 10`. -/
def c6doc : HNode :=
  .elem "html" [] (.cons (.elem "body" [] (.cons
    (.elem "div" [] (.cons
      (.elem "p" [] (.cons (.text (String.mk (List.replicate 30 'd'))) .nil))
      .nil))
    .nil)) .nil)

/-- The article produced from `c6doc`. -/
def c6article : Article :=
  ⟨"", "<p>dddddddddddddddddddddddddddddd</p>",
   "dddddddddddddddddddddddddddddd", "dddddddddddddddddddddddddddddd",
   "", none, none, "", 1, 6, 2/5⟩

/-- A page with no paragraphs at all: the score map is empty and extraction
fails with the no-content error. -/
def c7doc : HNode :=
  .elem "html" [] (.cons (.elem "body" [] .nil) .nil)

set_option maxHeartbeats 1000000 in
/-- C6.  Whenever extraction succeeds, the returned article's text content
is at least `minContentLength` bytes long, its confidence lies in `[0, 1]`,
and its word count equals the number of whitespace-delimited tokens of its
text content. -/
theorem C6_success_invariants (st : PipelineStages) (cfg : Config)
    (doc : HNode) (baseURL : String) (a : Article) :
    extractFromDocument st cfg doc baseURL = .ok a →
      cfg.minContentLength ≤ a.textContent.utf8ByteSize ∧
      0 ≤ a.confidence ∧ a.confidence ≤ 1 ∧
      a.wordCount = tokenCount a.textContent := by
  intro h
  cases htop : getTopCandidate (st.iterOrder (refineScores
      (propagateScores (st.preprocess doc) cfg.minParagraphLength))) with
  | none =>
    simp only [extractFromDocument, htop] at h
    exact absurd h (by simp)
  | some top =>
    simp only [extractFromDocument, assembleArticle, htop] at h
    split at h
    · exact absurd h (by simp)
    · rename_i hlen
      injection h with h2
      subst h2
      dsimp only
      refine ⟨not_lt.mp hlen, ?_, ?_, ?_⟩
      · exact (calculateConfidence_bounds top (st.iterOrder (refineScores
          (propagateScores (st.preprocess doc) cfg.minParagraphLength)))
          (countWords (getCleanText
            (selectedContent st cfg (st.preprocess doc) baseURL top)))).1
      · exact (calculateConfidence_bounds top (st.iterOrder (refineScores
          (propagateScores (st.preprocess doc) cfg.minParagraphLength)))
          (countWords (getCleanText
            (selectedContent st cfg (st.preprocess doc) baseURL top)))).2
      · exact countWords_eq_tokenCount (getCleanText
          (selectedContent st cfg (st.preprocess doc) baseURL top))

set_option maxRecDepth 100000 in
/-- Witness for `C6_success_invariants` at the concrete page `c6doc`. -/
theorem C6_success_invariants_witness :
    (10 : Nat) ≤ c6article.textContent.utf8ByteSize ∧
    0 ≤ c6article.confidence ∧ c6article.confidence ≤ 1 ∧
    c6article.wordCount = tokenCount c6article.textContent := by
  have h : extractFromDocument trivialStages ⟨25, 10⟩ c6doc "" =
      .ok c6article := by with_unfolding_all rfl
  exact C6_success_invariants trivialStages ⟨25, 10⟩ c6doc "" c6article h

set_option maxHeartbeats 1000000 in
/-- C7.  For a parsed document the pipeline can fail only at the two fatal
checks — the error is either the no-content error from candidate selection
(operation `extract`) or the too-short error from the final length check
(operation `validate`) — and on success the metadata produced by the
(total, never-failing) metadata extractors is carried into the article as
is, including empty or absent values. -/
theorem C7_error_taxonomy (st : PipelineStages) (cfg : Config) (doc : HNode)
    (baseURL : String) :
    (∀ e, extractFromDocument st cfg doc baseURL = .error e →
      (e.op = "extract" ∧ e.err = .noContent) ∨
      (e.op = "validate" ∧ e.err = .contentTooShort)) ∧
    (∀ a, extractFromDocument st cfg doc baseURL = .ok a →
      a.title = st.extractTitle doc ∧ a.author = st.extractAuthor doc ∧
      a.publishedAt = st.extractDate doc ∧
      a.leadImage = st.extractLeadImage doc baseURL ∧ a.url = baseURL) := by
  constructor
  · intro e h
    cases htop : getTopCandidate (st.iterOrder (refineScores
        (propagateScores (st.preprocess doc) cfg.minParagraphLength))) with
    | none =>
      simp only [extractFromDocument, htop] at h
      injection h with h2
      subst h2
      exact Or.inl ⟨rfl, rfl⟩
    | some top =>
      simp only [extractFromDocument, assembleArticle, htop] at h
      split at h
      · injection h with h2
        subst h2
        exact Or.inr ⟨rfl, rfl⟩
      · exact absurd h (by simp)
  · intro a h
    cases htop : getTopCandidate (st.iterOrder (refineScores
        (propagateScores (st.preprocess doc) cfg.minParagraphLength))) with
    | none =>
      simp only [extractFromDocument, htop] at h
      exact absurd h (by simp)
    | some top =>
      simp only [extractFromDocument, assembleArticle, htop] at h
      split at h
      · exact absurd h (by simp)
      · injection h with h2
        subst h2
        exact ⟨rfl, rfl, rfl, rfl, rfl⟩

set_option maxRecDepth 100000 in
/-- Witness for `C7_error_taxonomy`: the paragraph-free page `c7doc` fails,
and the error is the no-content error from the `extract` operation. -/
theorem C7_error_taxonomy_witness :
    ((⟨"extract", "", .noContent⟩ : ExtractionError).op = "extract" ∧
      (⟨"extract", "", .noContent⟩ : ExtractionError).err = .noContent) ∨
    ((⟨"extract", "", .noContent⟩ : ExtractionError).op = "validate" ∧
      (⟨"extract", "", .noContent⟩ : ExtractionError).err = .contentTooShort) :=
  (C7_error_taxonomy trivialStages ⟨25, 10⟩ c7doc "").1
    ⟨"extract", "", .noContent⟩ (by with_unfolding_all rfl)

/-! ### C9: idempotence of the postprocessor

The development works under a well-formedness assumption that the HTML
parser guarantees: tag names and attribute keys contain no `<` or `>`
characters (attribute values and text are escaped by the renderer and need
no assumption). -/

/-- No angle bracket characters. -/
def noAngle (l : List Char) : Bool := l.all (fun c => !(c = '<' || c = '>'))

mutual
/-- Parser-guaranteed shape: every tag name and attribute key is free of
angle brackets. -/
def HNode.wf : HNode → Bool
  | .text _ => true
  | .elem t a cs =>
    noAngle t.data && a.all (fun kv => noAngle kv.1.data) && cs.wf

def HForest.wf : HForest → Bool
  | .nil => true
  | .cons n f => n.wf && f.wf
end

mutual
/-- The scan of `stripTags` ends outside of a tag. -/
def complete : List Char → Bool
  | [] => true
  | c :: rest => if c = '<' then completeIn rest else complete rest

/-- Inside a tag: some `>` closes it and the remainder is complete. -/
def completeIn : List Char → Bool
  | [] => false
  | c :: rest => if c = '>' then complete rest else completeIn rest
end

mutual
theorem stripTags_append : ∀ (xs ys : List Char), complete xs = true →
    stripTags (xs ++ ys) = stripTags xs ++ stripTags ys
  | [], ys, _ => by simp [stripTags]
  | c :: rest, ys, h => by
    by_cases hc : c = '<'
    · subst hc
      have hin : completeIn rest = true := by
        simpa [complete] using h
      rw [List.cons_append, stripTags, if_pos rfl, stripTags, if_pos rfl]
      exact stripInTag_append rest ys (rest ++ ys) rest hin
    · have hrest : complete rest = true := by
        simpa [complete, hc] using h
      rw [List.cons_append, stripTags, if_neg hc, stripTags, if_neg hc,
        List.cons_append, stripTags_append rest ys hrest]

theorem stripInTag_append : ∀ (xs ys o₁ o₂ : List Char),
    completeIn xs = true →
    stripInTag (xs ++ ys) o₁ = stripInTag xs o₂ ++ stripTags ys
  | [], ys, o₁, o₂, h => by simp [completeIn] at h
  | c :: rest, ys, o₁, o₂, h => by
    by_cases hc : c = '>'
    · subst hc
      have hrest : complete rest = true := by
        simpa [completeIn] using h
      rw [List.cons_append, stripInTag, if_pos rfl, stripInTag, if_pos rfl]
      exact stripTags_append rest ys hrest
    · have hrest : completeIn rest = true := by
        simpa [completeIn, hc] using h
      rw [List.cons_append, stripInTag, if_neg hc, stripInTag, if_neg hc]
      exact stripInTag_append rest ys o₁ o₂ hrest
end

theorem noAngle_cons {c : Char} {l : List Char} (h : noAngle (c :: l) = true) :
    (c ≠ '<' ∧ c ≠ '>') ∧ noAngle l = true := by
  simp only [noAngle, List.all_cons, Bool.and_eq_true] at h ⊢
  constructor
  · constructor <;> intro hc <;> subst hc <;> simpa using h.1
  · exact h.2

theorem noAngle_stripTags {xs : List Char} (h : noAngle xs = true) :
    stripTags xs = xs := by
  induction xs with
  | nil => rfl
  | cons c rest ih =>
    obtain ⟨⟨hlt, _⟩, hrest⟩ := noAngle_cons h
    rw [stripTags, if_neg hlt, ih hrest]

theorem noAngle_complete {xs : List Char} (h : noAngle xs = true) :
    complete xs = true := by
  induction xs with
  | nil => rfl
  | cons c rest ih =>
    obtain ⟨⟨hlt, _⟩, hrest⟩ := noAngle_cons h
    rw [complete, if_neg hlt]
    exact ih hrest

theorem noAngle_append {xs ys : List Char} (hx : noAngle xs = true)
    (hy : noAngle ys = true) : noAngle (xs ++ ys) = true := by
  simp only [noAngle, List.all_append, Bool.and_eq_true]
  exact ⟨hx, hy⟩

/-- Text escaping never produces angle brackets. -/
theorem escapeChar_noAngle (c : Char) : noAngle (escapeChar c) = true := by
  unfold escapeChar
  split_ifs with h1 h2 h3 h4 h5
  · decide
  · decide
  · decide
  · decide
  · decide
  · simp [noAngle, h3, h4]

theorem escapeHtml_noAngle (s : String) : noAngle (escapeHtml s) = true := by
  unfold escapeHtml
  induction s.data with
  | nil => rfl
  | cons c rest ih =>
    rw [List.flatMap_cons]
    exact noAngle_append (escapeChar_noAngle c) ih

theorem renderAttrs_noAngle {attrs : List (String × String)}
    (h : ∀ kv ∈ attrs, noAngle kv.1.data = true) :
    noAngle (renderAttrs attrs) = true := by
  induction attrs with
  | nil => rfl
  | cons kv rest ih =>
    have hk := h kv (by simp)
    have hr := ih (fun kv' hkv' => h kv' (List.mem_cons_of_mem _ hkv'))
    have he := escapeHtml_noAngle kv.2
    have hsp : noAngle (" ".data) = true := by decide
    have heq2 : noAngle ("=\"".data) = true := by decide
    have hq : noAngle ("\"".data) = true := by decide
    simp only [renderAttrs, List.flatMap_cons, noAngle, List.all_append,
      Bool.and_eq_true] at hk hr he hsp heq2 hq ⊢
    tauto

/-- Crossing a rendered tag: an angle-free span followed by `>`. -/
theorem stripInTag_span {mid : List Char} (h : noAngle mid = true) :
    ∀ (rest o : List Char),
      stripInTag (mid ++ '>' :: rest) o = stripTags rest ∧
      completeIn (mid ++ '>' :: rest) = complete rest := by
  induction mid with
  | nil =>
    intro rest o
    constructor
    · rw [List.nil_append, stripInTag, if_pos rfl]
    · rw [List.nil_append, completeIn, if_pos rfl]
  | cons c m ih =>
    intro rest o
    obtain ⟨⟨_, hgt⟩, hm⟩ := noAngle_cons h
    constructor
    · rw [List.cons_append, stripInTag, if_neg hgt]
      exact (ih hm rest o).1
    · rw [List.cons_append, completeIn, if_neg hgt]
      exact (ih hm rest o).2

theorem complete_cons (c : Char) (l : List Char) :
    complete (c :: l) = if c = '<' then completeIn l else complete l := rfl

theorem completeIn_cons (c : Char) (l : List Char) :
    completeIn (c :: l) = if c = '>' then complete l else completeIn l := rfl

mutual
theorem complete_append : ∀ (xs ys : List Char), complete xs = true →
    complete (xs ++ ys) = complete ys
  | [], ys, _ => by simp
  | c :: rest, ys, h => by
    by_cases hc : c = '<'
    · subst hc
      have hin : completeIn rest = true := by simpa [complete] using h
      rw [List.cons_append, complete_cons, if_pos rfl]
      exact completeIn_append rest ys hin
    · have hrest : complete rest = true := by simpa [complete, hc] using h
      rw [List.cons_append, complete_cons, if_neg hc]
      exact complete_append rest ys hrest

theorem completeIn_append : ∀ (xs ys : List Char), completeIn xs = true →
    completeIn (xs ++ ys) = complete ys
  | [], ys, h => by simp [completeIn] at h
  | c :: rest, ys, h => by
    by_cases hc : c = '>'
    · subst hc
      have hrest : complete rest = true := by simpa [completeIn] using h
      rw [List.cons_append, completeIn_cons, if_pos rfl]
      exact complete_append rest ys hrest
    · have hrest : completeIn rest = true := by simpa [completeIn, hc] using h
      rw [List.cons_append, completeIn_cons, if_neg hc]
      exact completeIn_append rest ys hrest
end

mutual
/-- What `stripTags` leaves of a rendered node: the concatenation of its
escaped text nodes (nothing under a void tag, whose children are not
rendered). -/
def HNode.stripped : HNode → List Char
  | .text s => escapeHtml s
  | .elem t _ cs => if voidTags.contains t then [] else cs.stripped

def HForest.stripped : HForest → List Char
  | .nil => []
  | .cons n f => n.stripped ++ f.stripped
end

theorem stripTags_cons (c : Char) (l : List Char) :
    stripTags (c :: l) = if c = '<' then stripInTag l l else c :: stripTags l :=
  rfl

theorem render_text_eq (s : String) : (HNode.text s).render = escapeHtml s := rfl

theorem render_elem_eq (t : String) (a : List (String × String)) (cs : HForest) :
    (HNode.elem t a cs).render =
      (if voidTags.contains t then
        "<".data ++ t.data ++ renderAttrs a ++ "/>".data
      else
        "<".data ++ t.data ++ renderAttrs a ++ ">".data ++ cs.render ++
          "</".data ++ t.data ++ ">".data) := rfl

mutual
/-- On well-formed trees the rendering is tag-complete, and stripping its
tags leaves exactly the escaped text content. -/
theorem render_strip : ∀ n : HNode, HNode.wf n = true →
    complete n.render = true ∧ stripTags n.render = n.stripped
  | .text s, _ => by
    rw [render_text_eq]
    exact ⟨noAngle_complete (escapeHtml_noAngle s),
      by rw [noAngle_stripTags (escapeHtml_noAngle s)]; rfl⟩
  | .elem t a cs, h => by
    have hwf := h
    simp only [HNode.wf, Bool.and_eq_true, List.all_eq_true] at hwf
    obtain ⟨⟨ht, ha'⟩, hcs⟩ := hwf
    have ha : ∀ kv ∈ a, noAngle kv.1.data = true := by
      intro kv hkv
      first
        | exact ha' kv hkv
        | exact ha' kv.1 kv.2 (by rwa [Prod.mk.eta])
    have hra := renderAttrs_noAngle ha
    by_cases hv : voidTags.contains t = true
    · have hmid : noAngle (t.data ++ renderAttrs a ++ ['/']) = true :=
        noAngle_append (noAngle_append ht hra) (by decide)
      have hshape : (HNode.elem t a cs).render =
          '<' :: ((t.data ++ renderAttrs a ++ ['/']) ++ '>' :: []) := by
        rw [render_elem_eq, if_pos hv]
        simp
      rw [hshape, complete_cons, if_pos rfl, stripTags_cons, if_pos rfl]
      obtain ⟨hstrip, hcomp⟩ := stripInTag_span hmid []
        ((t.data ++ renderAttrs a ++ ['/']) ++ '>' :: [])
      refine ⟨by rw [hcomp]; rfl, ?_⟩
      rw [hstrip]
      show stripTags [] = HNode.stripped (.elem t a cs)
      rw [HNode.stripped, if_pos hv]
      rfl
    · obtain ⟨hcompF, hstripF⟩ := renderF_strip cs hcs
      have hmid2 : noAngle ('/' :: t.data) = true := by
        simp only [noAngle, List.all_cons, Bool.and_eq_true]
        exact ⟨by decide, by simpa [noAngle] using ht⟩
      have hclosing : ∀ X,
          stripTags ('<' :: (('/' :: t.data) ++ '>' :: X)) = stripTags X ∧
          complete ('<' :: (('/' :: t.data) ++ '>' :: X)) = complete X := by
        intro X
        rw [stripTags_cons, if_pos rfl, complete_cons, if_pos rfl]
        obtain ⟨h1, h2⟩ := stripInTag_span hmid2 X (('/' :: t.data) ++ '>' :: X)
        exact ⟨h1, h2⟩
      have hshape : (HNode.elem t a cs).render =
          '<' :: ((t.data ++ renderAttrs a) ++ '>' ::
            (cs.render ++ '<' :: (('/' :: t.data) ++ '>' :: []))) := by
        rw [render_elem_eq, if_neg hv]
        simp
      have hmid1 : noAngle (t.data ++ renderAttrs a) = true :=
        noAngle_append ht hra
      rw [hshape, complete_cons, if_pos rfl, stripTags_cons, if_pos rfl]
      obtain ⟨hstrip, hcomp⟩ := stripInTag_span hmid1
        (cs.render ++ '<' :: (('/' :: t.data) ++ '>' :: []))
        ((t.data ++ renderAttrs a) ++ '>' ::
          (cs.render ++ '<' :: (('/' :: t.data) ++ '>' :: [])))
      constructor
      · rw [hcomp, complete_append cs.render _ hcompF, (hclosing []).2]; rfl
      · rw [hstrip, stripTags_append cs.render _ hcompF, (hclosing []).1,
          hstripF]
        show cs.stripped ++ stripTags [] = HNode.stripped (.elem t a cs)
        rw [HNode.stripped, if_neg hv]
        simp [stripTags]

theorem renderF_strip : ∀ f : HForest, HForest.wf f = true →
    complete f.render = true ∧ stripTags f.render = f.stripped
  | .nil, _ => by constructor <;> rfl
  | .cons n f, h => by
    have hn : HNode.wf n = true ∧ HForest.wf f = true := by
      simpa [HForest.wf, Bool.and_eq_true] using h
    obtain ⟨hc1, hs1⟩ := render_strip n hn.1
    obtain ⟨hc2, hs2⟩ := renderF_strip f hn.2
    have hr : (HForest.cons n f).render = n.render ++ f.render := rfl
    rw [hr]
    constructor
    · rw [complete_append n.render f.render hc1, hc2]
    · rw [stripTags_append n.render f.render hc1, hs1, hs2]
      rfl
end

/-- All-whitespace character lists. -/
def allWS (l : List Char) : Bool := l.all isUnicodeSpace

theorem isUnicodeSpace_not_angle {c : Char} (h : isUnicodeSpace c = true) :
    c ≠ '<' ∧ c ≠ '>' := by
  constructor <;> intro hc <;> subst hc <;> exact absurd h (by decide)

theorem allWS_noAngle {l : List Char} (h : allWS l = true) :
    noAngle l = true := by
  simp only [allWS, List.all_eq_true] at h
  simp only [noAngle, List.all_eq_true]
  intro c hc
  obtain ⟨h1, h2⟩ := isUnicodeSpace_not_angle (h c hc)
  simp [h1, h2]

theorem escapeChar_ws {c : Char} (h : isUnicodeSpace c = true) :
    escapeChar c = [c] := by
  unfold escapeChar
  split_ifs with h1 h2 h3 h4 h5 <;>
    first
      | rfl
      | (first | subst h1 | subst h2 | subst h3 | subst h4 | subst h5
         exact absurd h (by decide))

theorem flatMap_escapeChar_ws : ∀ l : List Char,
    (∀ c ∈ l, isUnicodeSpace c = true) → l.flatMap escapeChar = l
  | [], _ => rfl
  | c :: rest, h => by
    rw [List.flatMap_cons, escapeChar_ws (h c (by simp)),
      flatMap_escapeChar_ws rest (fun x hx => h x (List.mem_cons_of_mem _ hx))]
    rfl

theorem escapeHtml_ws {s : String} (h : allWS s.data = true) :
    escapeHtml s = s.data := by
  unfold escapeHtml
  simp only [allWS, List.all_eq_true] at h
  exact flatMap_escapeChar_ws s.data h

theorem string_data_append (s t : String) : (s ++ t).data = s.data ++ t.data :=
  rfl

theorem rawText_elem_eq (t : String) (a : List (String × String))
    (cs : HForest) : (HNode.elem t a cs).rawText = cs.rawText := rfl

theorem rawText_cons_eq (n : HNode) (f : HForest) :
    (HForest.cons n f).rawText = n.rawText ++ f.rawText := rfl

mutual
/-- All-whitespace text renders to all-whitespace stripped content. -/
theorem stripped_ws : ∀ n : HNode, allWS n.rawText.data = true →
    allWS n.stripped = true
  | .text s, h => by
    have hraw : (HNode.text s).rawText = s := rfl
    rw [hraw] at h
    have : (HNode.text s).stripped = escapeHtml s := rfl
    rw [this, escapeHtml_ws h]
    exact h
  | .elem t a cs, h => by
    have hs : (HNode.elem t a cs).stripped =
        (if voidTags.contains t then [] else cs.stripped) := rfl
    rw [hs]
    split
    · rfl
    · exact strippedF_ws cs (by rwa [rawText_elem_eq] at h)

theorem strippedF_ws : ∀ f : HForest, allWS f.rawText.data = true →
    allWS f.stripped = true
  | .nil, _ => rfl
  | .cons n f, h => by
    rw [rawText_cons_eq, string_data_append] at h
    simp only [allWS, List.all_append, Bool.and_eq_true] at h
    have hs : (HForest.cons n f).stripped = n.stripped ++ f.stripped := rfl
    rw [hs]
    simp only [allWS, List.all_append, Bool.and_eq_true]
    exact ⟨stripped_ws n h.1, strippedF_ws f h.2⟩
end

/-- Trimming yields the empty list exactly for all-whitespace input. -/
theorem trimChars_nil_iff (l : List Char) :
    trimChars l = [] ↔ allWS l = true := by
  rw [trimChars_eq_rdropWhile, List.rdropWhile_eq_nil_iff]
  simp only [allWS, List.all_eq_true]
  constructor
  · intro h c hc
    rcases List.mem_append.mp (by
        rw [List.takeWhile_append_dropWhile (p := isUnicodeSpace)]
        exact hc) with hc' | hc'
    · exact List.mem_takeWhile_imp hc'
    · exact h c hc'
  · intro h c hc
    exact h c ((List.dropWhile_suffix isUnicodeSpace).subset hc)

theorem trimString_empty_iff (s : String) :
    trimString s = "" ↔ allWS s.data = true := by
  rw [← trimChars_nil_iff]
  constructor
  · intro h
    have := congrArg String.data h
    simpa [trimString] using this
  · intro h
    simp [trimString, String.ext_iff, h]

/-- `stripTags` passes an angle-free block through unchanged. -/
theorem stripTags_noAngle_prefix {pre : List Char} (h : noAngle pre = true) :
    ∀ X, stripTags (pre ++ X) = pre ++ stripTags X := by
  induction pre with
  | nil => intro X; rfl
  | cons c rest ih =>
    intro X
    obtain ⟨⟨hlt, _⟩, hrest⟩ := noAngle_cons h
    rw [List.cons_append, stripTags_cons, if_neg hlt, ih hrest, List.cons_append]

theorem complete_noAngle_prefix {pre : List Char} (h : noAngle pre = true) :
    ∀ X, complete (pre ++ X) = complete X := by
  induction pre with
  | nil => intro X; rfl
  | cons c rest ih =>
    intro X
    obtain ⟨⟨hlt, _⟩, hrest⟩ := noAngle_cons h
    rw [List.cons_append, complete_cons, if_neg hlt, ih hrest]

theorem completeIn_noGt {ys : List Char} (h : ∀ c ∈ ys, c ≠ '>') :
    completeIn ys = false := by
  induction ys with
  | nil => rfl
  | cons c rest ih =>
    rw [completeIn_cons, if_neg (h c (by simp))]
    exact ih (fun x hx => h x (List.mem_cons_of_mem _ hx))

mutual
theorem complete_drop_noGt : ∀ (xs ys : List Char),
    complete (xs ++ ys) = true → (∀ c ∈ ys, c ≠ '>') → complete xs = true
  | [], ys, _, _ => rfl
  | c :: rest, ys, h, hy => by
    by_cases hc : c = '<'
    · subst hc
      rw [List.cons_append, complete_cons, if_pos rfl] at h
      rw [complete_cons, if_pos rfl]
      exact completeIn_drop_noGt rest ys h hy
    · rw [List.cons_append, complete_cons, if_neg hc] at h
      rw [complete_cons, if_neg hc]
      exact complete_drop_noGt rest ys h hy

theorem completeIn_drop_noGt : ∀ (xs ys : List Char),
    completeIn (xs ++ ys) = true → (∀ c ∈ ys, c ≠ '>') → completeIn xs = true
  | [], ys, h, hy => by
    rw [List.nil_append] at h
    rw [completeIn_noGt hy] at h
    exact absurd h (by simp)
  | c :: rest, ys, h, hy => by
    by_cases hc : c = '>'
    · subst hc
      rw [List.cons_append, completeIn_cons, if_pos rfl] at h
      rw [completeIn_cons, if_pos rfl]
      exact complete_drop_noGt rest ys h hy
    · rw [List.cons_append, completeIn_cons, if_neg hc] at h
      rw [completeIn_cons, if_neg hc]
      exact completeIn_drop_noGt rest ys h hy
end

/-- Core of the empty-element characterization: when a complete rendering
strips to all-whitespace, the `isOnlyWhitespace` test on its trimmed form
succeeds. -/
theorem strip_trim_ws {R : List Char} (hcomp : complete R = true)
    (hws : allWS (stripTags R) = true) :
    trimChars (stripTags (trimChars R)) = [] := by
  have hR : R.takeWhile isUnicodeSpace ++ R.dropWhile isUnicodeSpace = R :=
    List.takeWhile_append_dropWhile isUnicodeSpace R
  have hpreWS : allWS (R.takeWhile isUnicodeSpace) = true := by
    simp only [allWS, List.all_eq_true]
    exact fun c hc => List.mem_takeWhile_imp hc
  have hpreNA := allWS_noAngle hpreWS
  set core := R.dropWhile isUnicodeSpace with hcore
  have hstrip1 : stripTags R =
      R.takeWhile isUnicodeSpace ++ stripTags core := by
    have h1 := stripTags_noAngle_prefix hpreNA core
    rw [hR] at h1
    exact h1
  have hcoreWS : allWS (stripTags core) = true := by
    rw [hstrip1] at hws
    simp only [allWS, List.all_append, Bool.and_eq_true] at hws
    exact hws.2
  have hcomp2 : complete core = true := by
    have h1 := complete_noAngle_prefix hpreNA core
    rw [hR] at h1
    rw [h1] at hcomp
    exact hcomp
  have hsplit : List.rdropWhile isUnicodeSpace core ++
      List.rtakeWhile isUnicodeSpace core = core :=
    rdropWhile_append_rtakeWhile _ core
  have hsufWS : allWS (List.rtakeWhile isUnicodeSpace core) = true := by
    simp only [allWS, List.all_eq_true]
    exact fun c hc => List.mem_rtakeWhile_imp hc
  have hsufNoGt : ∀ c ∈ List.rtakeWhile isUnicodeSpace core, c ≠ '>' := by
    intro c hc
    exact (isUnicodeSpace_not_angle (List.mem_rtakeWhile_imp hc)).2
  have hcomp3 : complete (List.rdropWhile isUnicodeSpace core) = true := by
    apply complete_drop_noGt _ _ _ hsufNoGt
    rw [hsplit]
    exact hcomp2
  have htrim : trimChars R = List.rdropWhile isUnicodeSpace core := by
    rw [trimChars_eq_rdropWhile]
  rw [htrim]
  have hstrip2 : stripTags core =
      stripTags (List.rdropWhile isUnicodeSpace core) ++
        stripTags (List.rtakeWhile isUnicodeSpace core) := by
    have h1 := stripTags_append (List.rdropWhile isUnicodeSpace core)
      (List.rtakeWhile isUnicodeSpace core) hcomp3
    rw [hsplit] at h1
    exact h1
  rw [trimChars_nil_iff]
  rw [hstrip2] at hcoreWS
  simp only [allWS, List.all_append, Bool.and_eq_true] at hcoreWS
  simpa [allWS] using hcoreWS.1

/-! ### Idempotence of the postprocessor -/

theorem removeTopDown_text (cond : HNode → Bool) (s : String) :
    removeTopDown cond (.text s) = .text s := rfl

theorem removeTopDown_elem (cond : HNode → Bool) (t : String)
    (a : List (String × String)) (cs : HForest) :
    removeTopDown cond (.elem t a cs) = .elem t a (removeTopDownF cond cs) :=
  rfl

theorem removeTopDownF_cons (cond : HNode → Bool) (n : HNode) (f : HForest) :
    removeTopDownF cond (.cons n f) =
      if cond n then removeTopDownF cond f
      else .cons (removeTopDown cond n) (removeTopDownF cond f) := rfl

theorem cleanAttributesF_cons_text (s : String) (f : HForest) :
    cleanAttributesF (.cons (.text s) f) =
      .cons (.text s) (cleanAttributesF f) := rfl

theorem cleanAttributesF_cons_elem (t : String) (a : List (String × String))
    (cs : HForest) (f : HForest) :
    cleanAttributesF (.cons (.elem t a cs) f) =
      .cons (.elem t (a.filter (fun kv => (allowedAttrsFor t).contains kv.1))
          (cleanAttributesF cs))
        (cleanAttributesF f) := rfl

mutual
/-- Removal passes preserve well-formedness. -/
theorem wf_removeTopDown : ∀ (cond : HNode → Bool) (n : HNode),
    HNode.wf n = true → HNode.wf (removeTopDown cond n) = true
  | _, .text _, _ => rfl
  | cond, .elem t a cs, h => by
    rw [removeTopDown_elem]
    simp only [HNode.wf, Bool.and_eq_true] at h ⊢
    exact ⟨h.1, wf_removeTopDownF cond cs h.2⟩

theorem wf_removeTopDownF : ∀ (cond : HNode → Bool) (f : HForest),
    HForest.wf f = true → HForest.wf (removeTopDownF cond f) = true
  | _, .nil, _ => rfl
  | cond, .cons n f, h => by
    simp only [HForest.wf, Bool.and_eq_true] at h
    rw [removeTopDownF_cons]
    split
    · exact wf_removeTopDownF cond f h.2
    · simp only [HForest.wf, Bool.and_eq_true]
      exact ⟨wf_removeTopDown cond n h.1, wf_removeTopDownF cond f h.2⟩
end

mutual
/-- Attribute cleaning preserves well-formedness. -/
theorem wf_cleanAttributes : ∀ n : HNode,
    HNode.wf n = true → HNode.wf (cleanAttributes n) = true
  | .text _, _ => rfl
  | .elem t a cs, h => by
    have hCA : cleanAttributes (.elem t a cs) =
        .elem t a (cleanAttributesF cs) := rfl
    rw [hCA]
    simp only [HNode.wf, Bool.and_eq_true] at h ⊢
    exact ⟨h.1, wf_cleanAttributesF cs h.2⟩

theorem wf_cleanAttributesF : ∀ f : HForest,
    HForest.wf f = true → HForest.wf (cleanAttributesF f) = true
  | .nil, _ => rfl
  | .cons (.text s) f, h => by
    rw [cleanAttributesF_cons_text]
    simp only [HForest.wf, Bool.and_eq_true] at h ⊢
    exact ⟨rfl, wf_cleanAttributesF f h.2⟩
  | .cons (.elem t a cs) f, h => by
    rw [cleanAttributesF_cons_elem]
    simp only [HForest.wf, HNode.wf, Bool.and_eq_true, List.all_eq_true]
      at h ⊢
    exact ⟨⟨⟨h.1.1.1, fun kv hkv => h.1.1.2 kv (List.mem_of_mem_filter hkv)⟩,
      wf_cleanAttributesF cs h.1.2⟩, wf_cleanAttributesF f h.2⟩
end

mutual
/-- No strict-descendant forest member of the tree satisfies `cond`. -/
def condFree (cond : HNode → Bool) : HNode → Bool
  | .text _ => true
  | .elem _ _ cs => condFreeF cond cs

def condFreeF (cond : HNode → Bool) : HForest → Bool
  | .nil => true
  | .cons n f => !cond n && condFree cond n && condFreeF cond f
end

theorem condFree_text (cond : HNode → Bool) (s : String) :
    condFree cond (.text s) = true := rfl

theorem condFree_elem (cond : HNode → Bool) (t : String)
    (a : List (String × String)) (cs : HForest) :
    condFree cond (.elem t a cs) = condFreeF cond cs := rfl

theorem condFreeF_cons (cond : HNode → Bool) (n : HNode) (f : HForest) :
    condFreeF cond (.cons n f) =
      (!cond n && condFree cond n && condFreeF cond f) := rfl

mutual
/-- Removal is the identity when no forest member satisfies the condition. -/
theorem condFree_removeTopDown_id : ∀ (cond : HNode → Bool) (n : HNode),
    condFree cond n = true → removeTopDown cond n = n
  | _, .text _, _ => rfl
  | cond, .elem t a cs, h => by
    rw [removeTopDown_elem,
      condFreeF_removeTopDownF_id cond cs (by rwa [condFree_elem] at h)]

theorem condFreeF_removeTopDownF_id : ∀ (cond : HNode → Bool) (f : HForest),
    condFreeF cond f = true → removeTopDownF cond f = f
  | _, .nil, _ => rfl
  | cond, .cons n f, h => by
    rw [condFreeF_cons] at h
    simp only [Bool.and_eq_true, Bool.not_eq_true'] at h
    rw [removeTopDownF_cons, if_neg (by simp [h.1.1]),
      condFree_removeTopDown_id cond n h.1.2,
      condFreeF_removeTopDownF_id cond f h.2]
end

mutual
/-- Freedom from a structurally stable condition survives any removal pass. -/
theorem condFree_removeTopDown_pres : ∀ (cond c' : HNode → Bool),
    (∀ k, cond (removeTopDown c' k) = cond k) →
    ∀ n : HNode, condFree cond n = true →
      condFree cond (removeTopDown c' n) = true
  | _, _, _, .text _, _ => rfl
  | cond, c', hstab, .elem t a cs, h => by
    rw [removeTopDown_elem, condFree_elem]
    exact condFreeF_removeTopDownF_pres cond c' hstab cs
      (by rwa [condFree_elem] at h)

theorem condFreeF_removeTopDownF_pres : ∀ (cond c' : HNode → Bool),
    (∀ k, cond (removeTopDown c' k) = cond k) →
    ∀ f : HForest, condFreeF cond f = true →
      condFreeF cond (removeTopDownF c' f) = true
  | _, _, _, .nil, _ => rfl
  | cond, c', hstab, .cons n f, h => by
    rw [condFreeF_cons] at h
    simp only [Bool.and_eq_true, Bool.not_eq_true'] at h
    rw [removeTopDownF_cons]
    split
    · exact condFreeF_removeTopDownF_pres cond c' hstab f h.2
    · rw [condFreeF_cons]
      simp only [Bool.and_eq_true, Bool.not_eq_true']
      exact ⟨⟨by rw [hstab n]; exact h.1.1,
        condFree_removeTopDown_pres cond c' hstab n h.1.2⟩,
        condFreeF_removeTopDownF_pres cond c' hstab f h.2⟩
end

mutual
/-- Freedom from an attribute/subtree-independent condition survives
attribute cleaning. -/
theorem condFree_cleanAttributes_pres : ∀ (cond : HNode → Bool),
    (∀ t a cs a' cs', cond (.elem t a cs) = cond (.elem t a' cs')) →
    ∀ n : HNode, condFree cond n = true →
      condFree cond (cleanAttributes n) = true
  | _, _, .text _, _ => rfl
  | cond, hT, .elem t a cs, h => by
    have hCA : cleanAttributes (.elem t a cs) =
        .elem t a (cleanAttributesF cs) := rfl
    rw [hCA, condFree_elem]
    exact condFreeF_cleanAttributesF_pres cond hT cs
      (by rwa [condFree_elem] at h)

theorem condFreeF_cleanAttributesF_pres : ∀ (cond : HNode → Bool),
    (∀ t a cs a' cs', cond (.elem t a cs) = cond (.elem t a' cs')) →
    ∀ f : HForest, condFreeF cond f = true →
      condFreeF cond (cleanAttributesF f) = true
  | _, _, .nil, _ => rfl
  | cond, hT, .cons (.text s) f, h => by
    rw [condFreeF_cons] at h
    simp only [Bool.and_eq_true, Bool.not_eq_true'] at h
    rw [cleanAttributesF_cons_text, condFreeF_cons]
    simp only [Bool.and_eq_true, Bool.not_eq_true']
    exact ⟨⟨h.1.1, rfl⟩, condFreeF_cleanAttributesF_pres cond hT f h.2⟩
  | cond, hT, .cons (.elem t a cs) f, h => by
    rw [condFreeF_cons] at h
    simp only [Bool.and_eq_true, Bool.not_eq_true'] at h
    rw [cleanAttributesF_cons_elem, condFreeF_cons]
    simp only [Bool.and_eq_true, Bool.not_eq_true']
    refine ⟨⟨?_, ?_⟩, condFreeF_cleanAttributesF_pres cond hT f h.2⟩
    · rw [hT t _ _ a cs]
      exact h.1.1
    · rw [condFree_elem]
      exact condFreeF_cleanAttributesF_pres cond hT cs
        (by rw [condFree_elem] at h; exact h.1.2)
end

mutual
/-- Removing by an attribute/subtree-independent condition that never holds
of text nodes is complete: the output is free of the condition. -/
theorem condFree_removeTopDown_self : ∀ (cond : HNode → Bool),
    (∀ t a cs a' cs', cond (.elem t a cs) = cond (.elem t a' cs')) →
    (∀ s, cond (.text s) = false) →
    ∀ n : HNode, condFree cond (removeTopDown cond n) = true
  | _, _, _, .text _ => rfl
  | cond, hT, htext, .elem t a cs => by
    rw [removeTopDown_elem, condFree_elem]
    exact condFreeF_removeTopDownF_self cond hT htext cs

theorem condFreeF_removeTopDownF_self : ∀ (cond : HNode → Bool),
    (∀ t a cs a' cs', cond (.elem t a cs) = cond (.elem t a' cs')) →
    (∀ s, cond (.text s) = false) →
    ∀ f : HForest, condFreeF cond (removeTopDownF cond f) = true
  | _, _, _, .nil => rfl
  | cond, hT, htext, .cons n f => by
    rw [removeTopDownF_cons]
    by_cases hc : cond n = true
    · rw [if_pos hc]
      exact condFreeF_removeTopDownF_self cond hT htext f
    · rw [if_neg hc, condFreeF_cons]
      simp only [Bool.and_eq_true, Bool.not_eq_true']
      refine ⟨⟨?_, condFree_removeTopDown_self cond hT htext n⟩,
        condFreeF_removeTopDownF_self cond hT htext f⟩
      cases n with
      | text s => rw [removeTopDown_text]; exact htext s
      | elem t a cs =>
        rw [removeTopDown_elem, hT t a _ a cs]
        simpa using hc
end

mutual
/-- Every strict-descendant element already carries only allowed
attributes. -/
def attrsClean : HNode → Bool
  | .text _ => true
  | .elem _ _ cs => attrsCleanF cs

def attrsCleanF : HForest → Bool
  | .nil => true
  | .cons (.text _) f => attrsCleanF f
  | .cons (.elem t a cs) f =>
    decide (a.filter (fun kv => (allowedAttrsFor t).contains kv.1) = a) &&
      attrsCleanF cs && attrsCleanF f
end

theorem attrsClean_elem (t : String) (a : List (String × String))
    (cs : HForest) : attrsClean (.elem t a cs) = attrsCleanF cs := rfl

theorem attrsCleanF_cons_text (s : String) (f : HForest) :
    attrsCleanF (.cons (.text s) f) = attrsCleanF f := rfl

theorem attrsCleanF_cons_elem (t : String) (a : List (String × String))
    (cs : HForest) (f : HForest) :
    attrsCleanF (.cons (.elem t a cs) f) =
      (decide (a.filter (fun kv => (allowedAttrsFor t).contains kv.1) = a) &&
        attrsCleanF cs && attrsCleanF f) := rfl

theorem filter_self_idem {α : Type} (p : α → Bool) : ∀ l : List α,
    (l.filter p).filter p = l.filter p
  | [] => rfl
  | a :: l => by
    by_cases h : p a = true <;>
      simp [List.filter_cons, h, filter_self_idem p l]

mutual
/-- `cleanAttributes` establishes `attrsClean`. -/
theorem attrsClean_cleanAttributes : ∀ n : HNode,
    attrsClean (cleanAttributes n) = true
  | .text _ => rfl
  | .elem t a cs => by
    have hCA : cleanAttributes (.elem t a cs) =
        .elem t a (cleanAttributesF cs) := rfl
    rw [hCA, attrsClean_elem]
    exact attrsCleanF_cleanAttributesF cs

theorem attrsCleanF_cleanAttributesF : ∀ f : HForest,
    attrsCleanF (cleanAttributesF f) = true
  | .nil => rfl
  | .cons (.text s) f => by
    rw [cleanAttributesF_cons_text, attrsCleanF_cons_text]
    exact attrsCleanF_cleanAttributesF f
  | .cons (.elem t a cs) f => by
    rw [cleanAttributesF_cons_elem, attrsCleanF_cons_elem]
    simp only [Bool.and_eq_true, decide_eq_true_eq]
    exact ⟨⟨filter_self_idem _ a, attrsCleanF_cleanAttributesF cs⟩,
      attrsCleanF_cleanAttributesF f⟩
end

mutual
/-- `cleanAttributes` is the identity on already-clean trees. -/
theorem attrsClean_cleanAttributes_id : ∀ n : HNode,
    attrsClean n = true → cleanAttributes n = n
  | .text _, _ => rfl
  | .elem t a cs, h => by
    have hCA : cleanAttributes (.elem t a cs) =
        .elem t a (cleanAttributesF cs) := rfl
    rw [hCA, attrsCleanF_cleanAttributesF_id cs (by rwa [attrsClean_elem] at h)]

theorem attrsCleanF_cleanAttributesF_id : ∀ f : HForest,
    attrsCleanF f = true → cleanAttributesF f = f
  | .nil, _ => rfl
  | .cons (.text s) f, h => by
    rw [attrsCleanF_cons_text] at h
    rw [cleanAttributesF_cons_text, attrsCleanF_cleanAttributesF_id f h]
  | .cons (.elem t a cs) f, h => by
    rw [attrsCleanF_cons_elem] at h
    simp only [Bool.and_eq_true, decide_eq_true_eq] at h
    rw [cleanAttributesF_cons_elem, h.1.1,
      attrsCleanF_cleanAttributesF_id cs h.1.2,
      attrsCleanF_cleanAttributesF_id f h.2]
end

mutual
/-- Removal passes preserve attribute cleanliness. -/
theorem attrsClean_removeTopDown : ∀ (cond : HNode → Bool) (n : HNode),
    attrsClean n = true → attrsClean (removeTopDown cond n) = true
  | _, .text _, _ => rfl
  | cond, .elem t a cs, h => by
    rw [removeTopDown_elem, attrsClean_elem]
    exact attrsCleanF_removeTopDownF cond cs (by rwa [attrsClean_elem] at h)

theorem attrsCleanF_removeTopDownF : ∀ (cond : HNode → Bool) (f : HForest),
    attrsCleanF f = true → attrsCleanF (removeTopDownF cond f) = true
  | _, .nil, _ => rfl
  | cond, .cons (.text s) f, h => by
    rw [attrsCleanF_cons_text] at h
    rw [removeTopDownF_cons]
    split
    · exact attrsCleanF_removeTopDownF cond f h
    · rw [removeTopDown_text, attrsCleanF_cons_text]
      exact attrsCleanF_removeTopDownF cond f h
  | cond, .cons (.elem t a cs) f, h => by
    rw [attrsCleanF_cons_elem] at h
    simp only [Bool.and_eq_true, decide_eq_true_eq] at h
    rw [removeTopDownF_cons]
    split
    · exact attrsCleanF_removeTopDownF cond f h.2
    · rw [removeTopDown_elem, attrsCleanF_cons_elem]
      simp only [Bool.and_eq_true, decide_eq_true_eq]
      exact ⟨⟨h.1.1, attrsCleanF_removeTopDownF cond cs h.1.2⟩,
        attrsCleanF_removeTopDownF cond f h.2⟩
end

theorem class_id_not_allowed (t k : String) (hk : k = "class" ∨ k = "id") :
    (allowedAttrsFor t).contains k = false := by
  unfold allowedAttrsFor
  split_ifs <;> rcases hk with h | h <;> subst h <;> rfl

mutual
/-- On attribute-clean trees no descendant matches a class/id pattern. -/
theorem attrsClean_patternCond_free : ∀ (pat : String) (n : HNode),
    attrsClean n = true → condFree (patternCond pat) n = true
  | _, .text _, _ => rfl
  | pat, .elem t a cs, h => by
    rw [condFree_elem]
    exact attrsCleanF_patternCond_free pat cs (by rwa [attrsClean_elem] at h)

theorem attrsCleanF_patternCond_free : ∀ (pat : String) (f : HForest),
    attrsCleanF f = true → condFreeF (patternCond pat) f = true
  | _, .nil, _ => rfl
  | pat, .cons (.text s) f, h => by
    rw [attrsCleanF_cons_text] at h
    rw [condFreeF_cons]
    simp only [Bool.and_eq_true, Bool.not_eq_true']
    exact ⟨⟨rfl, rfl⟩, attrsCleanF_patternCond_free pat f h⟩
  | pat, .cons (.elem t a cs) f, h => by
    rw [attrsCleanF_cons_elem] at h
    simp only [Bool.and_eq_true, decide_eq_true_eq] at h
    rw [condFreeF_cons]
    simp only [Bool.and_eq_true, Bool.not_eq_true']
    refine ⟨⟨?_, ?_⟩, attrsCleanF_patternCond_free pat f h.2⟩
    · have hno : ∀ k, k = "class" ∨ k = "id" →
          HNode.hasAttr (.elem t a cs) k = false := by
        intro k hk
        have : (HNode.elem t a cs).hasAttr k = a.any (fun kv => kv.1 = k) :=
          rfl
        rw [this]
        rw [Bool.eq_false_iff]
        intro hany
        obtain ⟨kv, hkv, hk1⟩ := List.any_eq_true.mp hany
        rw [← h.1.1] at hkv
        have hp := List.of_mem_filter hkv
        rw [decide_eq_true_eq] at hk1
        rw [hk1, class_id_not_allowed t k hk] at hp
        exact absurd hp (by simp)
      simp only [patternCond, hno "class" (Or.inl rfl), hno "id" (Or.inr rfl)]
      rfl
    · rw [condFree_elem]
      exact attrsCleanF_patternCond_free pat cs h.1.2
end

/-- Under well-formedness, the empty-element test collapses to "not
self-closing and whitespace-only text": a whitespace-only subtree always
renders to whitespace-only inner HTML. -/
theorem emptyCond_char (t : String) (a : List (String × String))
    (cs : HForest) (h : HNode.wf (.elem t a cs) = true) :
    emptyCond (.elem t a cs) =
      (!(t = "br" || t = "hr" || t = "img") &&
        decide (trimString cs.rawText = "")) := by
  have hcs : HForest.wf cs = true := by
    simp only [HNode.wf, Bool.and_eq_true] at h
    exact h.2
  by_cases hbr : t = "br"
  · simp [emptyCond, hbr]
  · by_cases hhr : t = "hr"
    · simp [emptyCond, hhr]
    · by_cases him : t = "img"
      · simp [emptyCond, him]
      · by_cases htx : trimString cs.rawText = ""
        · have hcomp := (renderF_strip cs hcs).1
          have hstr := (renderF_strip cs hcs).2
          have hwsRaw : allWS cs.rawText.data = true :=
            (trimString_empty_iff _).mp htx
          have hwsStr : allWS (stripTags cs.render) = true := by
            rw [hstr]
            exact strippedF_ws cs hwsRaw
          have hkey := strip_trim_ws hcomp hwsStr
          simp [emptyCond, hbr, hhr, him, isOnlyWhitespaceHtml,
            rawText_elem_eq, htx, hkey]
        · simp [emptyCond, hbr, hhr, him, rawText_elem_eq, htx]

/-- Removed empty elements carry only whitespace text. -/
theorem emptyCond_rawText_ws : ∀ n : HNode, emptyCond n = true →
    allWS n.rawText.data = true
  | .text _, h => Bool.noConfusion h
  | .elem t a cs, h => by
    simp only [emptyCond] at h
    split at h
    · exact Bool.noConfusion h
    · simp only [Bool.and_eq_true, decide_eq_true_eq] at h
      exact (trimString_empty_iff _).mp h.1

mutual
/-- The empty-removal pass deletes only whitespace text. -/
theorem rawText_removeTopDown_ws : ∀ n : HNode,
    allWS ((removeTopDown emptyCond n).rawText).data = true →
    allWS n.rawText.data = true
  | .text _, h => h
  | .elem t a cs, h => by
    rw [removeTopDown_elem, rawText_elem_eq] at h
    rw [rawText_elem_eq]
    exact rawTextF_removeTopDownF_ws cs h

theorem rawTextF_removeTopDownF_ws : ∀ f : HForest,
    allWS ((removeTopDownF emptyCond f).rawText).data = true →
    allWS f.rawText.data = true
  | .nil, h => h
  | .cons n f, h => by
    rw [removeTopDownF_cons] at h
    rw [rawText_cons_eq, string_data_append]
    simp only [allWS, List.all_append, Bool.and_eq_true]
    by_cases hc : emptyCond n = true
    · rw [if_pos hc] at h
      refine ⟨?_, rawTextF_removeTopDownF_ws f h⟩
      simpa [allWS] using emptyCond_rawText_ws n hc
    · rw [if_neg hc, rawText_cons_eq, string_data_append] at h
      simp only [allWS, List.all_append, Bool.and_eq_true] at h
      exact ⟨by simpa [allWS] using
          rawText_removeTopDown_ws n (by simpa [allWS] using h.1),
        by simpa [allWS] using
          rawTextF_removeTopDownF_ws f (by simpa [allWS] using h.2)⟩
end

mutual
/-- Survivors of one empty-removal pass are non-empty in the output: the
pass converges after a single iteration. -/
theorem survivor_removeEmpty : ∀ n : HNode, HNode.wf n = true →
    condFree emptyCond (removeTopDown emptyCond n) = true
  | .text _, _ => rfl
  | .elem t a cs, h => by
    rw [removeTopDown_elem, condFree_elem]
    have hcs : HForest.wf cs = true := by
      simp only [HNode.wf, Bool.and_eq_true] at h
      exact h.2
    exact survivorF_removeEmpty cs hcs

theorem survivorF_removeEmpty : ∀ f : HForest, HForest.wf f = true →
    condFreeF emptyCond (removeTopDownF emptyCond f) = true
  | .nil, _ => rfl
  | .cons n f, h => by
    simp only [HForest.wf, Bool.and_eq_true] at h
    rw [removeTopDownF_cons]
    by_cases hc : emptyCond n = true
    · rw [if_pos hc]
      exact survivorF_removeEmpty f h.2
    · rw [if_neg hc, condFreeF_cons]
      simp only [Bool.and_eq_true, Bool.not_eq_true']
      refine ⟨⟨?_, survivor_removeEmpty n h.1⟩, survivorF_removeEmpty f h.2⟩
      cases n with
      | text s => rw [removeTopDown_text]; rfl
      | elem t a cs =>
        rw [removeTopDown_elem]
        have hwf' : HNode.wf (.elem t a (removeTopDownF emptyCond cs)) =
            true := by
          have hx := wf_removeTopDown emptyCond (.elem t a cs) h.1
          rwa [removeTopDown_elem] at hx
        rw [emptyCond_char t a _ hwf']
        rw [emptyCond_char t a cs h.1] at hc
        by_cases hex : t = "br" ∨ t = "hr" ∨ t = "img"
        · have hb : (t = "br" || t = "hr" || t = "img") = true := by
            rcases hex with h1 | h1 | h1 <;> simp [h1]
          rw [hb]
          rfl
        · push_neg at hex
          have hb : (t = "br" || t = "hr" || t = "img") = false := by
            simp [hex.1, hex.2.1, hex.2.2]
          rw [hb] at hc ⊢
          simp only [Bool.not_false, Bool.true_and] at hc ⊢
          simp only [decide_eq_true_eq] at hc
          simp only [decide_eq_false_iff_not]
          intro htr
          exact hc ((trimString_empty_iff _).mpr
            (rawTextF_removeTopDownF_ws cs ((trimString_empty_iff _).mp htr)))
end

mutual
/-- In a tree free of empty elements, no anchor is an empty link. -/
theorem emptyLink_free : ∀ n : HNode, HNode.wf n = true →
    condFree emptyCond n = true → condFree emptyLinkCond n = true
  | .text _, _, _ => rfl
  | .elem t a cs, hw, hc => by
    rw [condFree_elem] at hc ⊢
    have hcs : HForest.wf cs = true := by
      simp only [HNode.wf, Bool.and_eq_true] at hw
      exact hw.2
    exact emptyLinkF_free cs hcs hc

theorem emptyLinkF_free : ∀ f : HForest, HForest.wf f = true →
    condFreeF emptyCond f = true → condFreeF emptyLinkCond f = true
  | .nil, _, _ => rfl
  | .cons n f, hw, hc => by
    simp only [HForest.wf, Bool.and_eq_true] at hw
    rw [condFreeF_cons] at hc ⊢
    simp only [Bool.and_eq_true, Bool.not_eq_true'] at hc ⊢
    refine ⟨⟨?_, emptyLink_free n hw.1 hc.1.2⟩, emptyLinkF_free f hw.2 hc.2⟩
    cases n with
    | text s => rfl
    | elem t a cs =>
      by_cases hta : t = "a"
      · subst hta
        have h1 := hc.1.1
        rw [emptyCond_char "a" a cs hw.1] at h1
        simp only [show (("a" : String) = "br" || ("a" : String) = "hr" ||
            ("a" : String) = "img") = false from rfl, Bool.not_false,
          Bool.true_and, decide_eq_false_iff_not] at h1
        simp [emptyLinkCond, rawText_elem_eq, h1]
      · simp [emptyLinkCond, hta]
end

theorem scriptStyleCond_hT (t : String) (a : List (String × String))
    (cs : HForest) (a' : List (String × String)) (cs' : HForest) :
    scriptStyleCond (.elem t a cs) = scriptStyleCond (.elem t a' cs') := rfl

theorem scriptStyleCond_text (s : String) :
    scriptStyleCond (.text s) = false := rfl

theorem scriptStyleCond_stab (c' : HNode → Bool) (k : HNode) :
    scriptStyleCond (removeTopDown c' k) = scriptStyleCond k := by
  cases k <;> rfl

theorem foldl_removeTopDown_id : ∀ (pats : List String) (m : HNode),
    (∀ p ∈ pats, condFree (patternCond p) m = true) →
    pats.foldl (fun x p => removeTopDown (patternCond p) x) m = m
  | [], _, _ => rfl
  | p :: ps, m, h => by
    rw [List.foldl_cons,
      condFree_removeTopDown_id (patternCond p) m (h p (by simp))]
    exact foldl_removeTopDown_id ps m
      (fun q hq => h q (List.mem_cons_of_mem _ hq))

theorem condFree_foldl_pres : ∀ (cond : HNode → Bool),
    (∀ (c' : HNode → Bool) k, cond (removeTopDown c' k) = cond k) →
    ∀ (pats : List String) (x : HNode), condFree cond x = true →
      condFree cond
        (pats.foldl (fun m p => removeTopDown (patternCond p) m) x) = true
  | _, _, [], _, h => h
  | cond, hstab, p :: ps, x, h => by
    rw [List.foldl_cons]
    exact condFree_foldl_pres cond hstab ps _
      (condFree_removeTopDown_pres cond (patternCond p)
        (hstab (patternCond p)) x h)

theorem wf_foldl_removeTopDown : ∀ (pats : List String) (x : HNode),
    HNode.wf x = true →
    HNode.wf (pats.foldl (fun m p => removeTopDown (patternCond p) m) x) =
      true
  | [], _, h => h
  | p :: ps, x, h => by
    rw [List.foldl_cons]
    exact wf_foldl_removeTopDown ps _ (wf_removeTopDown (patternCond p) x h)

theorem removeUnwanted_eq (n : HNode) :
    removeUnwantedFromContent n =
      removeTopDown emptyLinkCond
        (unwantedPatterns.foldl
          (fun m pat => removeTopDown (patternCond pat) m)
          (removeTopDown scriptStyleCond n)) := rfl

theorem wf_removeUnwanted (n : HNode) (h : HNode.wf n = true) :
    HNode.wf (removeUnwantedFromContent n) = true := by
  rw [removeUnwanted_eq]
  exact wf_removeTopDown _ _
    (wf_foldl_removeTopDown _ _ (wf_removeTopDown _ n h))

theorem ssFree_removeUnwanted (n : HNode) :
    condFree scriptStyleCond (removeUnwantedFromContent n) = true := by
  rw [removeUnwanted_eq]
  exact condFree_removeTopDown_pres _ _ (scriptStyleCond_stab _) _
    (condFree_foldl_pres _ scriptStyleCond_stab _ _
      (condFree_removeTopDown_self _ scriptStyleCond_hT
        scriptStyleCond_text n))

/-- On well-formed input the three empty-removal passes coincide with one:
`Postprocess` reduces to a single empty-removal pass after cleaning. -/
theorem postprocess_eq_pass (x : HNode) (h : HNode.wf x = true) :
    postprocess x =
      removeTopDown emptyCond
        (cleanAttributes (removeUnwantedFromContent x)) := by
  have hwq : HNode.wf (cleanAttributes (removeUnwantedFromContent x)) =
      true := wf_cleanAttributes _ (wf_removeUnwanted x h)
  have hsv : condFree emptyCond
      (removeTopDown emptyCond
        (cleanAttributes (removeUnwantedFromContent x))) = true :=
    survivor_removeEmpty _ hwq
  have h2 : ∀ z : HNode, condFree emptyCond z = true →
      removeTopDown emptyCond z = z :=
    fun z hz => condFree_removeTopDown_id emptyCond z hz
  have hre : postprocess x =
      removeTopDown emptyCond (removeTopDown emptyCond
        (removeTopDown emptyCond
          (cleanAttributes (removeUnwantedFromContent x)))) := rfl
  rw [hre, h2 _ hsv, h2 _ hsv]

/-- Postprocessing a postprocessed well-formed tree changes nothing. -/
theorem postprocess_fixed (x : HNode) (h : HNode.wf x = true) :
    postprocess (postprocess x) = postprocess x := by
  have hwq : HNode.wf (cleanAttributes (removeUnwantedFromContent x)) =
      true := wf_cleanAttributes _ (wf_removeUnwanted x h)
  set m := removeTopDown emptyCond
    (cleanAttributes (removeUnwantedFromContent x)) with hmdef
  have hpp : postprocess x = m := postprocess_eq_pass x h
  have hwm : HNode.wf m = true := wf_removeTopDown _ _ hwq
  have hsv : condFree emptyCond m = true := survivor_removeEmpty _ hwq
  have hss : condFree scriptStyleCond m = true :=
    condFree_removeTopDown_pres _ _ (scriptStyleCond_stab _) _
      (condFree_cleanAttributes_pres _ scriptStyleCond_hT _
        (ssFree_removeUnwanted x))
  have hat : attrsClean m = true :=
    attrsClean_removeTopDown _ _
      (attrsClean_cleanAttributes (removeUnwantedFromContent x))
  have hel : condFree emptyLinkCond m = true := emptyLink_free m hwm hsv
  have hRUm : removeUnwantedFromContent m = m := by
    rw [removeUnwanted_eq, condFree_removeTopDown_id _ m hss,
      foldl_removeTopDown_id unwantedPatterns m
        (fun p _ => attrsClean_patternCond_free p m hat)]
    exact condFree_removeTopDown_id _ m hel
  have hCAm : cleanAttributes m = m := attrsClean_cleanAttributes_id m hat
  have hPassm : removeTopDown emptyCond m = m :=
    condFree_removeTopDown_id _ m hsv
  rw [hpp]
  have hre : postprocess m =
      removeTopDown emptyCond (removeTopDown emptyCond
        (removeTopDown emptyCond
          (cleanAttributes (removeUnwantedFromContent m)))) := rfl
  rw [hre, hRUm, hCAm, hPassm, hPassm, hPassm]

/-- **C9** The postprocessing cleanup is idempotent: on any well-formed
content subtree (tag names and attribute keys free of angle brackets, as
produced by the HTML parser), applying `Postprocess` a second time to the
output of the first pass leaves the tree — and hence the cleaned HTML
output — unchanged. -/
theorem C9_postprocess_idempotent (n : HNode) (h : HNode.wf n = true) :
    postprocess (postprocess n) = postprocess n ∧
    getCleanHTML (postprocess (postprocess n)) =
      getCleanHTML (postprocess n) := by
  have hfix := postprocess_fixed n h
  exact ⟨hfix, by rw [hfix]⟩

theorem C9_postprocess_idempotent_witness :
    HNode.wf c6doc = true ∧
      (postprocess (postprocess c6doc) = postprocess c6doc ∧
        getCleanHTML (postprocess (postprocess c6doc)) =
          getCleanHTML (postprocess c6doc)) :=
  ⟨by with_unfolding_all decide,
    C9_postprocess_idempotent c6doc (by with_unfolding_all decide)⟩

end ArticleExtractor
